import Mathlib

/-!
Verification development for the algorithm collection

Shallow embedding of the five C programs of the collection
(`segment-tree-range-queries`, `kmp-string-matching`,
`longest-increasing-subsequence`, `matrix-exponentiation`,
`dijkstra-shortest-path`, each `solution.c`, with the C++ siblings where a
statement is about them), followed by the theorems settled about them.

Conventions of the embedding

* The global `ll *tree` is a partial map from slot index to stored value:
  `none` marks a slot outside the allocated block, and a read or write of such
  a slot makes the operation fail (`none`).
* The recursive C functions and the `while` loops take a fuel argument that
  bounds the recursion depth or the number of iterations; running out of fuel
  is `none`.  A call "returns" when some amount of fuel yields `some`.  A `for`
  loop over a fixed range is a recursion over the iterations left.
* The sizes that `main` hands to `calloc` and `malloc` are formed in `int`
  before the conversion to `size_t` (`4 * n + 4` in the segment tree, `n + 1` in
  the Dijkstra program): they are reduced to 32-bit two's complement (`wrap32`;
  signed overflow is taken to wrap), and a negative result is a request that
  the allocator cannot meet, so the block is `NULL` and the first access faults;
  every other request is taken to be met.
  The C++ constructor of the segment tree forms `4 * a.size()` in `size_t`.
* `int` indices of the segment tree are mathematical integers (`/` is C's
  truncating division, `Int.tdiv`); node numbers start at 1 and only grow, so
  they are naturals.  Whenever `4 * n + 4` is representable in `int`, every
  index formed on a run from the root is (node numbers stay below `4n`,
  `start + end` is at most `2n`).
* `long long` sums are mathematical integers in `build`, `update`, `query`;
  `buildLL`, `updateLL`, `queryLL` are the same functions with every
  `long long` addition reduced to 64-bit two's complement.
* Strings are lists over an alphabet of which only equality is used; an access
  beyond the end of a string or of the `lps` block, or a read of an `lps` cell
  that was never written, makes the operation fail.  The `int` variables of the
  KMP code never become negative (`j - 1` and `len - 1` are evaluated only for
  `j`, `len >= 1` when the pattern is non-empty), so they are naturals.
* The `tails` array of the LIS program is a list of cells that are `none` until
  written; `lo`, `hi`, `mid`, `lis_len` are naturals (they start at 0 and
  `hi - lo` is computed only for `lo < hi`), the array values are integers that
  are only compared.
* In the matrix program every `long long` addition and multiplication is
  reduced to 64-bit two's complement and `%` is the truncating remainder
  (`Int.tmod`); the unsigned exponent is a natural below `2^64`.
* In the Dijkstra program the arrays `dist` and `adj` are maps from index to
  content together with the length `n + 1` of their blocks: an access at an
  index outside the block fails; the two loops `for (i = 0; i <= n; i++)` are
  represented by the content they leave and by the condition that the indices
  `0 .. n` lie inside the block.  The heap's `data` is a map from index to
  content (its capacity and its growth by `realloc` are not modelled);
  `nd = d + weight` is reduced to 64-bit two's complement.
-/

namespace SegTree

/-- Contents of the `tree` array: `some v` for an allocated slot holding `v`. -/
abbrev Tree := Nat → Option Int

/-- The block returned by `calloc(size, sizeof(ll))`: `size` zeroed slots. -/
def calloc (size : Nat) : Tree := fun i => if i < size then some 0 else none

/-- Reading `tree[i]`. -/
def readT (tree : Tree) (i : Nat) : Option Int := tree i

/-- The array with slot `i` overwritten by `v`. -/
def setSlot (tree : Tree) (i : Nat) (v : Int) : Tree :=
  fun j => if j = i then some v else tree j

/-- The assignment `tree[i] = v`; fails when slot `i` is not allocated. -/
def writeT (tree : Tree) (i : Nat) (v : Int) : Option Tree :=
  match tree i with
  | none => none
  | some _ => some (setSlot tree i v)

/-- Source function `build` (solution.c lines 20-29). -/
def build : Nat → (Int → Int) → Tree → Nat → Int → Int → Option Tree
  | 0, _, _, _, _, _ => none
  | fuel + 1, arr, tree, node, start, end_ =>
    if start = end_ then
      writeT tree node (arr start)
    else
      let mid := (start + end_).tdiv 2
      (build fuel arr tree (2 * node) start mid).bind fun t1 =>
      (build fuel arr t1 (2 * node + 1) (mid + 1) end_).bind fun t2 =>
      (readT t2 (2 * node)).bind fun x =>
      (readT t2 (2 * node + 1)).bind fun y =>
      writeT t2 node (x + y)

/-- Source function `update` (solution.c lines 31-43). -/
def update : Nat → Tree → Nat → Int → Int → Int → Int → Option Tree
  | 0, _, _, _, _, _, _ => none
  | fuel + 1, tree, node, start, end_, idx, val =>
    if start = end_ then
      writeT tree node val
    else
      let mid := (start + end_).tdiv 2
      (if idx ≤ mid then update fuel tree (2 * node) start mid idx val
       else update fuel tree (2 * node + 1) (mid + 1) end_ idx val).bind fun t1 =>
      (readT t1 (2 * node)).bind fun x =>
      (readT t1 (2 * node + 1)).bind fun y =>
      writeT t1 node (x + y)

/-- Source function `query` (solution.c lines 45-56). -/
def query : Nat → Tree → Nat → Int → Int → Int → Int → Option Int
  | 0, _, _, _, _, _, _ => none
  | fuel + 1, tree, node, start, end_, l, r =>
    if r < start ∨ end_ < l then
      some 0
    else if l ≤ start ∧ end_ ≤ r then
      readT tree node
    else
      let mid := (start + end_).tdiv 2
      (query fuel tree (2 * node) start mid l r).bind fun left_sum =>
      (query fuel tree (2 * node + 1) (mid + 1) end_ l r).bind fun right_sum =>
      some (left_sum + right_sum)

/-- The C++ member `SegTree::query` (solution.cpp lines 35-41), which clips the
query range on the way down. -/
def queryCpp : Nat → Tree → Nat → Int → Int → Int → Int → Option Int
  | 0, _, _, _, _, _, _ => none
  | fuel + 1, tree, v, tl, tr, l, r =>
    if l > r then
      some 0
    else if l = tl ∧ r = tr then
      readT tree v
    else
      let tm := (tl + tr).tdiv 2
      (queryCpp fuel tree (2 * v) tl tm l (min r tm)).bind fun a =>
      (queryCpp fuel tree (2 * v + 1) (tm + 1) tr (max l (tm + 1)) r).bind fun b =>
      some (a + b)

/-- Reduction of an integer to the `int` it is stored as (32-bit two's
complement): the representative of `x` modulo `2^32` in `[-2^31, 2^31)`. -/
def wrap32 (x : Int) : Int := (x + 2 ^ 31) % 2 ^ 32 - 2 ^ 31

/-- The block returned by `calloc((size_t)count, sizeof(ll))` for an `int`
`count`.  A negative `count` converts to a `size_t` of at least `2^64 - 2^31`
elements, whose size in bytes is not representable: `calloc` returns `NULL` and
no slot can be accessed.  Otherwise the block has `count` zeroed slots. -/
def callocInt (count : Int) : Tree :=
  if count < 0 then fun _ => none else calloc count.toNat

/-- The tree as `main` sets it up (solution.c lines 69-72):
`calloc((size_t)(4 * n + 4), sizeof(ll))`, where `4 * n + 4` is formed in `int`
before the conversion, followed by `build(arr, 1, 1, n)`. -/
def construct (fuel : Nat) (arr : Int → Int) (n : Nat) : Option Tree :=
  build fuel arr (callocInt (wrap32 (4 * (n : Int) + 4))) 1 1 n

/-- The update requests of `main`'s loop (type 1 lines), applied in order:
each is `update(1, 1, n, idx, val)`. -/
def updates (fuel : Nat) (n : Nat) : Tree → List (Int × Int) → Option Tree
  | tree, [] => some tree
  | tree, (idx, val) :: rest =>
    (update fuel tree 1 1 n idx val).bind fun t1 => updates fuel n t1 rest

/-- Reference array after the assignments `a[idx] = val`, applied in order. -/
def applyUpdates (a : Int → Int) : List (Int × Int) → Int → Int
  | [] => a
  | (idx, val) :: rest => applyUpdates (fun i => if i = idx then val else a i) rest

/-- Linear scan: `a[l] + a[l+1] + ...` over `cnt` consecutive positions. -/
def scan (a : Int → Int) (l : Int) : Nat → Int
  | 0 => 0
  | cnt + 1 => a l + scan a (l + 1) cnt

/-- Brute-force reference for a range-sum query: the sum of `a[l..r]`. -/
def linearSum (a : Int → Int) (l r : Int) : Int := scan a l (r + 1 - l).toNat

/-- The 1-indexed array of the concrete scenario: slot 0 is unused. -/
def scenarioArr : Int → Int := fun i => [0, 1, 3, 5, 7, 9, 11].getD i.toNat 0

/-- A value of C type `int` (32-bit two's complement). -/
def inInt32 (x : Int) : Prop := -2 ^ 31 ≤ x ∧ x < 2 ^ 31

/-- Reduction of an integer to the `long long` it is stored as (64-bit two's
complement): the representative of `x` modulo `2^64` in `[-2^63, 2^63)`. -/
def wrap64 (x : Int) : Int := (x + 2 ^ 63) % 2 ^ 64 - 2 ^ 63

/-- Source function `build` with `long long` additions wrapping modulo `2^64`. -/
def buildLL : Nat → (Int → Int) → Tree → Nat → Int → Int → Option Tree
  | 0, _, _, _, _, _ => none
  | fuel + 1, arr, tree, node, start, end_ =>
    if start = end_ then
      writeT tree node (arr start)
    else
      let mid := (start + end_).tdiv 2
      (buildLL fuel arr tree (2 * node) start mid).bind fun t1 =>
      (buildLL fuel arr t1 (2 * node + 1) (mid + 1) end_).bind fun t2 =>
      (readT t2 (2 * node)).bind fun x =>
      (readT t2 (2 * node + 1)).bind fun y =>
      writeT t2 node (wrap64 (x + y))

/-- Source function `update` with `long long` additions wrapping modulo `2^64`. -/
def updateLL : Nat → Tree → Nat → Int → Int → Int → Int → Option Tree
  | 0, _, _, _, _, _, _ => none
  | fuel + 1, tree, node, start, end_, idx, val =>
    if start = end_ then
      writeT tree node val
    else
      let mid := (start + end_).tdiv 2
      (if idx ≤ mid then updateLL fuel tree (2 * node) start mid idx val
       else updateLL fuel tree (2 * node + 1) (mid + 1) end_ idx val).bind fun t1 =>
      (readT t1 (2 * node)).bind fun x =>
      (readT t1 (2 * node + 1)).bind fun y =>
      writeT t1 node (wrap64 (x + y))

/-- Source function `query` with `long long` additions wrapping modulo `2^64`. -/
def queryLL : Nat → Tree → Nat → Int → Int → Int → Int → Option Int
  | 0, _, _, _, _, _, _ => none
  | fuel + 1, tree, node, start, end_, l, r =>
    if r < start ∨ end_ < l then
      some 0
    else if l ≤ start ∧ end_ ≤ r then
      readT tree node
    else
      let mid := (start + end_).tdiv 2
      (queryLL fuel tree (2 * node) start mid l r).bind fun left_sum =>
      (queryLL fuel tree (2 * node + 1) (mid + 1) end_ l r).bind fun right_sum =>
      some (wrap64 (left_sum + right_sum))

/-- The construction of `main` with wrapping `long long` additions. -/
def constructLL (fuel : Nat) (arr : Int → Int) (n : Nat) : Option Tree :=
  buildLL fuel arr (callocInt (wrap32 (4 * (n : Int) + 4))) 1 1 n

/-- The update requests of `main`'s loop with wrapping `long long` additions. -/
def updatesLL (fuel : Nat) (n : Nat) : Tree → List (Int × Int) → Option Tree
  | tree, [] => some tree
  | tree, (idx, val) :: rest =>
    (updateLL fuel tree 1 1 n idx val).bind fun t1 => updatesLL fuel n t1 rest

/-- Slot `j` belongs to the heap subtree rooted at node `k`: at some depth `d`
below `k`, the nodes are `k * 2^d, ..., (k + 1) * 2^d - 1`. -/
def InSub (k j : Nat) : Prop := ∃ d : Nat, k * 2 ^ d ≤ j ∧ j < (k + 1) * 2 ^ d

/-- The nodes reached from a root call on node 1 with the range `[lo, hi]`
(`build(arr, 1, 1, n)` in C, `build(a, 1, 0, n - 1)` in C++), following the
recursion of `build`: `Covers lo hi k s e` says that node `k` is reached with
the range `[s, e]`.  `update` and `query` descend along the same calls. -/
inductive Covers (lo hi : Int) : Nat → Int → Int → Prop
  | root : Covers lo hi 1 lo hi
  | left {k : Nat} {s e : Int} : Covers lo hi k s e → s < e →
      Covers lo hi (2 * k) s ((s + e).tdiv 2)
  | right {k : Nat} {s e : Int} : Covers lo hi k s e → s < e →
      Covers lo hi (2 * k + 1) ((s + e).tdiv 2 + 1) e

/-- The subtree of node `k` over `[s, e]` stores the range sums of `a`:
a leaf holds `a[s]`, an inner node the sum of `a[s..e]`, recursively. -/
inductive Valid (t : Tree) (a : Int → Int) : Nat → Int → Int → Prop
  | leaf {k : Nat} {s : Int} : t k = some (a s) → Valid t a k s s
  | node {k : Nat} {s e : Int} : s < e →
      Valid t a (2 * k) s ((s + e).tdiv 2) →
      Valid t a (2 * k + 1) ((s + e).tdiv 2 + 1) e →
      t k = some (linearSum a s e) → Valid t a k s e

/-- Slots `1 .. 4n - 1` of the tree array are allocated. -/
def Alloc (n : Nat) (t : Tree) : Prop := ∀ i : Nat, 1 ≤ i → i < 4 * n → (t i).isSome = true

/-- Bookkeeping for the size bound: node `k` lies on the level that starts at
`p` (a power of two in every use), and its range `[s, e]` is short enough for
that level of a tree over `n` positions. -/
def Fits (n p k : Nat) (s e : Int) : Prop :=
  0 ≤ s ∧ s ≤ e ∧ 1 ≤ p ∧ p ≤ k ∧ k < 2 * p ∧ (p : Int) * (e - s) < n ∧ p ≤ 2 * n

end SegTree

namespace KMP

/-- The `lps` array: a cell is `none` until it is first written (`malloc` leaves
the block uninitialised); reading such a cell, or one outside the block, fails. -/
abbrev Buf := List (Option Nat)

/-- Reading `lps[i]`. -/
def readBuf (b : Buf) (i : Nat) : Option Nat := (b[i]?).join

/-- The assignment `lps[i] = v`; fails outside the block. -/
def writeBuf (b : Buf) (i v : Nat) : Option Buf :=
  if i < b.length then some (b.set i (some v)) else none

/-- Loop variables of `build_lps`. -/
structure LpsState where
  lps : Buf
  len : Nat
  i : Nat

/-- One iteration of the `while (i < m)` loop of `build_lps`
(solution.c lines 38-49, solution.cpp lines 14-23). -/
def lpsStep {α : Type} [DecidableEq α] (pattern : List α) (st : LpsState) : Option LpsState :=
  match pattern[st.i]?, pattern[st.len]? with
  | some a, some b =>
    if a = b then
      (writeBuf st.lps st.i (st.len + 1)).bind fun lps1 =>
        some { lps := lps1, len := st.len + 1, i := st.i + 1 }
    else if st.len ≠ 0 then
      (readBuf st.lps (st.len - 1)).bind fun len1 =>
        some { lps := st.lps, len := len1, i := st.i }
    else
      (writeBuf st.lps st.i 0).bind fun lps1 =>
        some { lps := lps1, len := st.len, i := st.i + 1 }
  | _, _ => none

/-- The loop `while (i < m) ...` of `build_lps`. -/
def lpsLoop {α : Type} [DecidableEq α] (pattern : List α) (m : Nat) :
    Nat → LpsState → Option Buf
  | 0, _ => none
  | fuel + 1, st =>
    if st.i < m then (lpsStep pattern st).bind fun st1 => lpsLoop pattern m fuel st1
    else some st.lps

/-- Source function `build_lps` (solution.c lines 31-52): the block comes from
`malloc`, then `lps[0] = 0; len = 0; i = 1` and the loop. -/
def build_lps {α : Type} [DecidableEq α] (fuel : Nat) (pattern : List α) (m : Nat) :
    Option Buf :=
  (writeBuf (List.replicate m none) 0 0).bind fun lps =>
    lpsLoop pattern m fuel { lps := lps, len := 0, i := 1 }

/-- Source function `compute_lps` (solution.cpp lines 7-26): as `build_lps`, on
a vector of `m` zeros. -/
def compute_lps {α : Type} [DecidableEq α] (fuel : Nat) (pattern : List α) : Option Buf :=
  lpsLoop pattern pattern.length fuel
    { lps := List.replicate pattern.length (some 0), len := 0, i := 1 }

/-- Symbol `x` of a string, `none` beyond its end. -/
def acc {α : Type} (l : List α) : Nat → Option α := fun x => l[x]?

/-- `Suf p t k i`: the first `k` symbols of `p` are the `k` symbols of `t`
that end just before position `i`, that is `p[0..k) = t[i-k..i)`. -/
def Suf {β : Type} (p t : Nat → β) (k i : Nat) : Prop :=
  k ≤ i ∧ ∀ x, x < k → p x = t (i - k + x)

/-- `IsLps p i v`: `v` is the length of the longest proper prefix of `p[0..i]`
that is also a suffix of `p[0..i]`. -/
def IsLps {β : Type} (p : Nat → β) (i v : Nat) : Prop :=
  v ≤ i ∧ Suf p p v (i + 1) ∧ ∀ k, k ≤ i → Suf p p k (i + 1) → k ≤ v

/-- The table `lps` is filled and correct on positions `0 .. cnt - 1`. -/
def LpsTable {α : Type} (pattern : List α) (lps : Buf) (cnt : Nat) : Prop :=
  ∀ x, x < cnt → ∃ v, readBuf lps x = some v ∧ IsLps (acc pattern) x v

/-- Loop invariant of `build_lps`. -/
structure LpsInv {α : Type} (pattern : List α) (st : LpsState) : Prop where
  hi1 : 1 ≤ st.i
  hi2 : st.i ≤ pattern.length
  hlen : st.len < st.i
  hsize : st.lps.length = pattern.length
  htab : LpsTable pattern st.lps st.i
  hsuf : Suf (acc pattern) (acc pattern) st.len st.i
  hdead : ∀ k, st.len < k → k < st.i → Suf (acc pattern) (acc pattern) k st.i →
    acc pattern k ≠ acc pattern st.i

end KMP

namespace LIS

/-- An `int` array obtained from `malloc`: a cell is `none` until it is first
written; reading such a cell, or one outside the block, fails. -/
abbrev IntBuf := List (Option Int)

/-- Reading `b[i]`. -/
def readI (b : IntBuf) (i : Nat) : Option Int := (b[i]?).join

/-- The assignment `b[i] = v`; fails outside the block. -/
def writeI (b : IntBuf) (i : Nat) (v : Int) : Option IntBuf :=
  if i < b.length then some (b.set i (some v)) else none

/-- The loop `while (lo < hi)` of `lower_bound` (solution.c lines 20-27). -/
def lowerLoop (tails : IntBuf) (val : Int) : Nat → Nat → Nat → Option Nat
  | 0, _, _ => none
  | fuel + 1, lo, hi =>
    if lo < hi then
      let mid := lo + (hi - lo) / 2
      (readI tails mid).bind fun x =>
        if x < val then lowerLoop tails val fuel (mid + 1) hi
        else lowerLoop tails val fuel lo mid
    else some lo

/-- Source function `lower_bound` (solution.c lines 18-29). -/
def lower_bound (fuel : Nat) (tails : IntBuf) (len : Nat) (val : Int) : Option Nat :=
  lowerLoop tails val fuel 0 len

/-- Variables of the main loop: the `tails` array and `lis_len`. -/
structure LisState where
  tails : IntBuf
  lis_len : Nat

/-- Body of the main loop for the element `x = arr[i]` (solution.c lines 49-53). -/
def lisStep (fuel : Nat) (x : Int) (st : LisState) : Option LisState :=
  (lower_bound fuel st.tails st.lis_len x).bind fun pos =>
  (writeI st.tails pos x).bind fun tails1 =>
  some { tails := tails1,
         lis_len := if pos = st.lis_len then st.lis_len + 1 else st.lis_len }

/-- The loop `for (i = ...; i < n; i++)` of `main` with `rem = n - i` iterations
left (solution.c lines 48-54). -/
def lisFor (fuel : Nat) (arr : List Int) : Nat → Nat → LisState → Option LisState
  | 0, _, st => some st
  | rem + 1, i, st =>
    (arr[i]?).bind fun x =>
    (lisStep fuel x st).bind fun st1 =>
    lisFor fuel arr rem (i + 1) st1

/-- The C `main` (solution.c lines 31-62) on the count `n` and the values `arr`
read from the input; the result is the printed number. -/
def lisMain (fuel : Nat) (n : Int) (arr : List Int) : Option Nat :=
  if n ≤ 0 then some 0
  else
    (lisFor fuel arr n.toNat 0
      { tails := List.replicate n.toNat none, lis_len := 0 }).map fun st => st.lis_len

/-- Value stored in cell `k` (0 for a cell that holds none). -/
def cell (b : IntBuf) (k : Nat) : Int := (readI b k).getD 0


/-- Loop invariant of `main` after the elements `pre` have been processed. -/
structure LisInv (n : Nat) (pre : List Int) (st : LisState) : Prop where
  hsize : st.tails.length = n
  hlen : st.lis_len ≤ pre.length
  hfill : ∀ k, k < st.lis_len → readI st.tails k = some (cell st.tails k)
  hmono : ∀ j k, j < k → k < st.lis_len → cell st.tails j < cell st.tails k
  hwit : ∀ k, k < st.lis_len → ∃ s0 : List Int, List.Sublist (s0 ++ [cell st.tails k]) pre ∧
    (s0 ++ [cell st.tails k]).Pairwise (· < ·) ∧ s0.length = k
  hmin : ∀ (s0 : List Int) (x : Int), List.Sublist (s0 ++ [x]) pre → (s0 ++ [x]).Pairwise (· < ·) →
    s0.length < st.lis_len ∧ cell st.tails s0.length ≤ x

end LIS

namespace MatExp

/-- The constant `MOD` (solution.c line 14). -/
def MOD : Int := 1000000007

/-- `long long` addition, wrapping modulo `2^64`. -/
def addLL (x y : Int) : Int := SegTree.wrap64 (x + y)

/-- `long long` multiplication, wrapping modulo `2^64`. -/
def mulLL (x y : Int) : Int := SegTree.wrap64 (x * y)

/-- The C operator `%` on `long long` (truncating remainder). -/
def remLL (x y : Int) : Int := Int.tmod x y

/-- The struct `Mat`: the entries `m[0][0]`, `m[0][1]`, `m[1][0]`, `m[1][1]`. -/
structure Mat where
  m00 : Int
  m01 : Int
  m10 : Int
  m11 : Int
deriving DecidableEq

/-- The `k` loop of `mat_mul` for one entry `c.m[i][j]` (solution.c lines 28-31):
starting from 0, `c = (c + a[i][k] % MOD * (b[k][j] % MOD)) % MOD` for `k = 0, 1`. -/
def cellMul (ai0 ai1 b0j b1j : Int) : Int :=
  let c0 : Int := 0
  let c1 := remLL (addLL c0 (mulLL (remLL ai0 MOD) (remLL b0j MOD))) MOD
  remLL (addLL c1 (mulLL (remLL ai1 MOD) (remLL b1j MOD))) MOD

/-- Source function `mat_mul` (solution.c lines 24-35). -/
def mat_mul (a b : Mat) : Mat :=
  { m00 := cellMul a.m00 a.m01 b.m00 b.m10
    m01 := cellMul a.m00 a.m01 b.m01 b.m11
    m10 := cellMul a.m10 a.m11 b.m00 b.m10
    m11 := cellMul a.m10 a.m11 b.m01 b.m11 }

/-- The `k` loop of the C++ `mat_mul` (solution.cpp lines 14-16):
`c = (c + a[i][k] * b[k][j]) % MOD` for `k = 0, 1`. -/
def cellMulCpp (ai0 ai1 b0j b1j : Int) : Int :=
  let c0 : Int := 0
  let c1 := remLL (addLL c0 (mulLL ai0 b0j)) MOD
  remLL (addLL c1 (mulLL ai1 b1j)) MOD

/-- The C++ function `mat_mul` (solution.cpp lines 10-20). -/
def mat_mul_cpp (a b : Mat) : Mat :=
  { m00 := cellMulCpp a.m00 a.m01 b.m00 b.m10
    m01 := cellMulCpp a.m00 a.m01 b.m01 b.m11
    m10 := cellMulCpp a.m10 a.m11 b.m00 b.m10
    m11 := cellMulCpp a.m10 a.m11 b.m01 b.m11 }

/-- The loop `while (exp > 0)` of `mat_pow` (solution.c lines 43-49,
solution.cpp lines 24-30), over the multiplication `mul`; `exp` is unsigned. -/
def powLoop (mul : Mat → Mat → Mat) : Nat → Mat → Mat → Nat → Option Mat
  | 0, _, _, _ => none
  | fuel + 1, result, base, exp =>
    if exp > 0 then
      powLoop mul fuel (if exp &&& 1 ≠ 0 then mul result base else result) (mul base base)
        (exp >>> 1)
    else some result

/-- Source function `mat_pow` (solution.c lines 37-51). -/
def mat_pow (fuel : Nat) (base : Mat) (exp : Nat) : Option Mat :=
  powLoop mat_mul fuel { m00 := 1, m01 := 0, m10 := 0, m11 := 1 } base exp

/-- The C `main` (solution.c lines 53-72) on the number read; the result is the
printed number. -/
def fibMain (fuel : Nat) (n : Nat) : Option Int :=
  if n = 0 then some 0
  else (mat_pow fuel { m00 := 1, m01 := 1, m10 := 1, m11 := 0 } n).map fun r => r.m01

/-- The C++ function `mat_pow` (solution.cpp lines 22-32), for `n >= 0`. -/
def mat_pow_cpp (fuel : Nat) (m : Mat) (n : Nat) : Option Mat :=
  powLoop mat_mul_cpp fuel { m00 := 1, m01 := 0, m10 := 0, m11 := 1 } m n

/-- The C++ function `fibonacci` (solution.cpp lines 34-40), for `n >= 0`. -/
def fibonacci (fuel : Nat) (n : Nat) : Option Int :=
  if n = 0 then some 0
  else if n = 1 then some 1
  else (mat_pow_cpp fuel { m00 := 1, m01 := 1, m10 := 1, m11 := 0 } n).map fun r => r.m01

/-- The Fibonacci numbers: `F(0) = 0`, `F(1) = 1`, `F(k) = F(k-1) + F(k-2)`. -/
def fibSpec : Nat → Nat
  | 0 => 0
  | 1 => 1
  | k + 2 => fibSpec (k + 1) + fibSpec k

/-- The number `F(k-1)` of the matrix identity, with the value 1 at `k = 0`
(the identity matrix). -/
def fibPrev : Nat → Nat
  | 0 => 1
  | k + 1 => fibSpec k

/-- The matrix `[[F(k+1), F(k)], [F(k), F(k-1)]]` with every entry reduced
modulo 1000000007. -/
def fibMat (k : Nat) : Mat :=
  { m00 := ((fibSpec (k + 1) % 1000000007 : Nat) : Int)
    m01 := ((fibSpec k % 1000000007 : Nat) : Int)
    m10 := ((fibSpec k % 1000000007 : Nat) : Int)
    m11 := ((fibPrev k % 1000000007 : Nat) : Int) }

end MatExp

namespace Dijkstra

/-- The constant `INF` (solution.c line 12). -/
def INF : Int := 1000000000000000000

/-- The struct `HeapNode`. -/
structure HeapNode where
  node : Nat
  dist : Int

/-- The struct `MinHeap`: the array `data` and the number `size` of live
entries (the capacity and its growth by `realloc` are not modelled). -/
structure MinHeap where
  data : Nat → HeapNode
  size : Nat

/-- Entry `e` is one of the live entries `data[0 .. size - 1]`. -/
def LiveD (data : Nat → HeapNode) (size : Nat) (e : HeapNode) : Prop :=
  ∃ i, i < size ∧ data i = e

/-- Entry `e` is one of the live entries of the heap. -/
def Live (h : MinHeap) (e : HeapNode) : Prop := LiveD h.data h.size e

/-- The min-heap order on `data[0 .. size - 1]`: no entry is smaller than its
parent. -/
def HeapOK (data : Nat → HeapNode) (size : Nat) : Prop :=
  ∀ i, 0 < i → i < size → (data ((i - 1) / 2)).dist ≤ (data i).dist

/-- Directed walks from node 1: `PathTo E v rest W` says that there is a walk
from node 1 to node `v` along edges of `E` with total weight `W`; `rest` lists
the nodes visited before `v`, the latest first. -/
inductive PathTo (E : List (Nat × Nat × Int)) : Nat → List Nat → Int → Prop
  | start : PathTo E 1 [] 0
  | step {u v : Nat} {w W : Int} {rest : List Nat} :
      PathTo E u rest W → (u, v, w) ∈ E → PathTo E v (u :: rest) (W + w)

/-- Invariant of the main loop. `S` is the set of nodes whose edges have been
relaxed; while the edges of node `cur` are being relaxed, `pend` holds those
still to come. -/
structure DInv (E : List (Nat × Nat × Int)) (S : List Nat) (cur : Nat)
    (pend : List (Nat × Int)) (dist : Nat → Int) (h : MinHeap) : Prop where
  hok : HeapOK h.data h.size
  hsrc : dist 1 = 0
  hrange : ∀ v, 0 ≤ dist v ∧ dist v ≤ INF
  hpath : ∀ v, dist v < INF →
    ∃ rest, PathTo E v rest (dist v) ∧ (v :: rest).Nodup ∧ ∀ x ∈ rest, x ∈ S
  hopt : ∀ v, v ∈ S → dist v < INF ∧ ∀ rest W, PathTo E v rest W → dist v ≤ W
  hrel : ∀ u v w, u ∈ S → (u, v, w) ∈ E →
    dist v ≤ dist u + w ∨ (u = cur ∧ (v, w) ∈ pend)
  hlive : ∀ v, v ∉ S → dist v < INF → Live h { node := v, dist := dist v }
  hent : ∀ e, Live h e → dist e.node ≤ e.dist ∧ e.dist < INF

end Dijkstra

/-! ## Theorems: segment tree -/

namespace SegTree

theorem mid_ge {s e : Int} (hs : 0 ≤ s) (h : s < e) : s ≤ (s + e).tdiv 2 := by
  rw [Int.tdiv_eq_ediv (by omega) (by omega)]; omega

theorem mid_lt {s e : Int} (hs : 0 ≤ s) (h : s < e) : (s + e).tdiv 2 < e := by
  rw [Int.tdiv_eq_ediv (by omega) (by omega)]; omega

theorem mid_twice_le {s e : Int} (hs : 0 ≤ s) (h : s < e) :
    2 * ((s + e).tdiv 2 - s) ≤ e - s ∧ 2 * (e - ((s + e).tdiv 2 + 1)) ≤ e - s := by
  rw [Int.tdiv_eq_ediv (by omega) (by omega)]; omega

/-! ### Linear scan -/

theorem scan_add (a : Int → Int) (l : Int) (i j : Nat) :
    scan a l (i + j) = scan a l i + scan a (l + i) j := by
  induction i generalizing l with
  | zero => simp [scan]
  | succ i ih =>
    have h : i + 1 + j = (i + j) + 1 := by omega
    rw [h]
    simp only [scan, ih (l + 1)]
    have h2 : l + 1 + (i : Int) = l + ((i + 1 : Nat) : Int) := by push_cast; omega
    rw [h2]; omega

theorem scan_congr (a b : Int → Int) (l : Int) (cnt : Nat)
    (h : ∀ i, l ≤ i → i < l + cnt → a i = b i) : scan a l cnt = scan b l cnt := by
  induction cnt generalizing l with
  | zero => rfl
  | succ c ih =>
    simp only [scan]
    rw [h l (by omega) (by push_cast; omega), ih (l + 1)]
    intro i h1 h2
    exact h i (by omega) (by push_cast; omega)

theorem linearSum_empty (a : Int → Int) {l r : Int} (h : r < l) : linearSum a l r = 0 := by
  unfold linearSum
  have : (r + 1 - l).toNat = 0 := by omega
  rw [this]; rfl

theorem linearSum_single (a : Int → Int) (l : Int) : linearSum a l l = a l := by
  unfold linearSum
  have : (l + 1 - l).toNat = 1 := by omega
  rw [this]; simp [scan]

theorem linearSum_split (a : Int → Int) {l m r : Int} (h1 : l ≤ m + 1) (h2 : m ≤ r) :
    linearSum a l r = linearSum a l m + linearSum a (m + 1) r := by
  unfold linearSum
  have h : (r + 1 - l).toNat = (m + 1 - l).toNat + (r + 1 - (m + 1)).toNat := by omega
  rw [h, scan_add]
  have h3 : l + ((m + 1 - l).toNat : Int) = m + 1 := by omega
  rw [h3]

theorem linearSum_congr (a b : Int → Int) {l r : Int}
    (h : ∀ i, l ≤ i → i ≤ r → a i = b i) : linearSum a l r = linearSum b l r := by
  unfold linearSum
  apply scan_congr
  intro i h1 h2
  exact h i h1 (by omega)

/-! ### Heap subtrees -/

theorem inSub_self (k : Nat) : InSub k k := ⟨0, by simp, by simp⟩

theorem inSub_left {k j : Nat} (h : InSub (2 * k) j) : InSub k j := by
  obtain ⟨d, h1, h2⟩ := h
  refine ⟨d + 1, ?_, ?_⟩
  · rw [pow_succ]; nlinarith
  · rw [pow_succ]; nlinarith [Nat.one_le_two_pow (n := d)]

theorem inSub_right {k j : Nat} (h : InSub (2 * k + 1) j) : InSub k j := by
  obtain ⟨d, h1, h2⟩ := h
  refine ⟨d + 1, ?_, ?_⟩
  · rw [pow_succ]; nlinarith [Nat.one_le_two_pow (n := d)]
  · rw [pow_succ]; nlinarith

theorem inSub_ge {k j : Nat} (h : InSub k j) : k ≤ j := by
  obtain ⟨d, h1, _⟩ := h
  have : 1 ≤ 2 ^ d := Nat.one_le_two_pow
  nlinarith

theorem inSub_disjoint {k j : Nat} (hk : 1 ≤ k) (h1 : InSub (2 * k) j)
    (h2 : InSub (2 * k + 1) j) : False := by
  obtain ⟨d, a1, a2⟩ := h1
  obtain ⟨d2, b1, b2⟩ := h2
  rcases Nat.lt_or_ge d2 d with h | h
  · have hp : 2 ^ (d2 + 1) ≤ 2 ^ d := Nat.pow_le_pow_right (by omega) h
    rw [pow_succ] at hp
    nlinarith
  · have hp : 2 ^ d ≤ 2 ^ d2 := Nat.pow_le_pow_right (by omega) h
    nlinarith

theorem not_inSub_left_self {k : Nat} (hk : 1 ≤ k) : ¬ InSub (2 * k) k := by
  intro h; have := inSub_ge h; omega

theorem not_inSub_right_self {k : Nat} : ¬ InSub (2 * k + 1) k := by
  intro h; have := inSub_ge h; omega

theorem not_inSub_left_right {k : Nat} (hk : 1 ≤ k) : ¬ InSub (2 * k) (2 * k + 1) :=
  fun h => inSub_disjoint hk h (inSub_self _)

theorem not_inSub_right_left {k : Nat} (hk : 1 ≤ k) : ¬ InSub (2 * k + 1) (2 * k) :=
  fun h => inSub_disjoint hk (inSub_self _) h

/-! ### Reads and writes -/

theorem writeT_eq_some {t : Tree} {i : Nat} {v : Int} {t' : Tree} :
    writeT t i v = some t' ↔ (t i).isSome = true ∧ t' = setSlot t i v := by
  unfold writeT
  cases h : t i <;> simp [eq_comm]

theorem writeT_of_isSome {t : Tree} {i : Nat} (v : Int) (h : (t i).isSome = true) :
    writeT t i v = some (setSlot t i v) := writeT_eq_some.2 ⟨h, rfl⟩

theorem setSlot_same (t : Tree) (i : Nat) (v : Int) : setSlot t i v i = some v := by
  simp [setSlot]

theorem setSlot_other (t : Tree) {i j : Nat} (v : Int) (h : j ≠ i) :
    setSlot t i v j = t j := by
  simp [setSlot, h]

theorem setSlot_isSome (t : Tree) {i : Nat} (v : Int) (h : (t i).isSome = true) (j : Nat) :
    (setSlot t i v j).isSome = (t j).isSome := by
  unfold setSlot
  split
  · next hj => subst hj; simp [h]
  · rfl

theorem alloc_of_isSome_eq {n : Nat} {t t' : Tree} (h : Alloc n t)
    (he : ∀ j, (t' j).isSome = (t j).isSome) : Alloc n t' := by
  intro i h1 h2
  rw [he]; exact h i h1 h2

theorem alloc_calloc (n m : Nat) (h : 4 * n ≤ m) : Alloc n (calloc m) := by
  intro i _ h2
  have : i < m := by omega
  simp [calloc, this]

/-! ### Level bookkeeping -/

theorem fits_root {n : Nat} (h : 1 ≤ n) : Fits n 1 1 1 n := by
  refine ⟨by omega, by omega, by omega, by omega, by omega, by omega, by omega⟩

theorem fits_node_lt {n p k : Nat} {s e : Int} (h : Fits n p k s e) : 1 ≤ k ∧ k < 4 * n := by
  obtain ⟨_, _, h3, h4, h5, _, h7⟩ := h
  omega

theorem fits_left {n p k : Nat} {s e : Int} (h : Fits n p k s e) (hlt : s < e) :
    Fits n (2 * p) (2 * k) s ((s + e).tdiv 2) := by
  obtain ⟨h1, h2, h3, h4, h5, h6, h7⟩ := h
  have hm := mid_ge h1 hlt
  have ht := (mid_twice_le h1 hlt).1
  have hp : (1 : Int) ≤ p := by exact_mod_cast h3
  refine ⟨h1, hm, by omega, by omega, by omega, ?_, ?_⟩
  · push_cast; nlinarith
  · have : (p : Int) < n := by nlinarith
    omega

theorem fits_right {n p k : Nat} {s e : Int} (h : Fits n p k s e) (hlt : s < e) :
    Fits n (2 * p) (2 * k + 1) ((s + e).tdiv 2 + 1) e := by
  obtain ⟨h1, h2, h3, h4, h5, h6, h7⟩ := h
  have hm := mid_ge h1 hlt
  have hl := mid_lt h1 hlt
  have ht := (mid_twice_le h1 hlt).2
  have hp : (1 : Int) ≤ p := by exact_mod_cast h3
  refine ⟨by omega, by omega, by omega, by omega, by omega, ?_, ?_⟩
  · push_cast; nlinarith
  · have : (p : Int) < n := by nlinarith
    omega

/-! ### The stored-sums invariant -/

theorem valid_root {t : Tree} {a : Int → Int} {k : Nat} {s e : Int} (h : Valid t a k s e) :
    t k = some (linearSum a s e) := by
  cases h with
  | leaf h => rw [linearSum_single]; exact h
  | node _ _ _ h => exact h

theorem valid_frame {t t' : Tree} {a : Int → Int} {k : Nat} {s e : Int}
    (h : Valid t a k s e) (hf : ∀ j, InSub k j → t' j = t j) : Valid t' a k s e := by
  induction h with
  | leaf h => exact Valid.leaf (by rw [hf _ (inSub_self _)]; exact h)
  | node hlt _ _ h ihl ihr =>
    exact Valid.node hlt (ihl fun j hj => hf j (inSub_left hj))
      (ihr fun j hj => hf j (inSub_right hj)) (by rw [hf _ (inSub_self _)]; exact h)

theorem valid_congr {t : Tree} {a b : Int → Int} {k : Nat} {s e : Int}
    (h : Valid t a k s e) (hs : 0 ≤ s) (hab : ∀ i, s ≤ i → i ≤ e → a i = b i) :
    Valid t b k s e := by
  induction h with
  | leaf h => exact Valid.leaf (by rw [← hab _ (le_refl _) (le_refl _)]; exact h)
  | node hlt _ _ h ihl ihr =>
    have hm := mid_ge hs hlt
    have hl := mid_lt hs hlt
    refine Valid.node hlt (ihl hs fun i h1 h2 => hab i h1 (by omega))
      (ihr (by omega) fun i h1 h2 => hab i (by omega) h2) ?_
    rw [← linearSum_congr a b hab]; exact h

theorem valid_le {t : Tree} {a : Int → Int} {k : Nat} {s e : Int} (h : Valid t a k s e) :
    s ≤ e := by
  cases h with
  | leaf _ => exact le_refl _
  | node hlt _ _ _ => exact le_of_lt hlt

/-! ### build -/

theorem build_frame (arr : Int → Int) : ∀ (fuel : Nat) (t : Tree) (k : Nat) (s e : Int)
    (t' : Tree), build fuel arr t k s e = some t' →
    (∀ j, ¬ InSub k j → t' j = t j) ∧ (∀ j, (t' j).isSome = (t j).isSome) := by
  intro fuel
  induction fuel with
  | zero => intro t k s e t' h; simp [build] at h
  | succ f ih =>
    intro t k s e t' h
    simp only [build] at h
    split at h
    · obtain ⟨ha, rfl⟩ := writeT_eq_some.1 h
      refine ⟨fun j hj => setSlot_other t _ ?_, setSlot_isSome t _ ha⟩
      rintro rfl; exact hj (inSub_self _)
    · simp only [Option.bind_eq_some, readT] at h
      obtain ⟨t1, h1, t2, h2, x, _, y, _, hw⟩ := h
      obtain ⟨ha, rfl⟩ := writeT_eq_some.1 hw
      obtain ⟨f1, a1⟩ := ih _ _ _ _ _ h1
      obtain ⟨f2, a2⟩ := ih _ _ _ _ _ h2
      constructor
      · intro j hj
        have hjk : j ≠ k := by rintro rfl; exact hj (inSub_self _)
        rw [setSlot_other _ _ hjk, f2 j (fun h => hj (inSub_right h)),
          f1 j (fun h => hj (inSub_left h))]
      · intro j
        rw [setSlot_isSome _ _ ha, a2, a1]

theorem build_succeeds (arr : Int → Int) (n : Nat) : ∀ (fuel : Nat) (t : Tree) (p k : Nat)
    (s e : Int), Fits n p k s e → Alloc n t → e - s < fuel →
    ∃ t', build fuel arr t k s e = some t' := by
  intro fuel
  induction fuel with
  | zero => intro t p k s e hf _ h; have := hf.2.1; omega
  | succ f ih =>
    intro t p k s e hf ha hfuel
    have hk := fits_node_lt hf
    simp only [build]
    split
    · exact ⟨_, writeT_of_isSome _ (ha k hk.1 hk.2)⟩
    · next hne =>
      have hlt : s < e := lt_of_le_of_ne hf.2.1 hne
      have hm := mid_ge hf.1 hlt
      have hl := mid_lt hf.1 hlt
      obtain ⟨t1, h1⟩ := ih t _ _ _ _ (fits_left hf hlt) ha (by omega)
      have a1 := alloc_of_isSome_eq ha (build_frame arr _ _ _ _ _ _ h1).2
      obtain ⟨t2, h2⟩ := ih t1 _ _ _ _ (fits_right hf hlt) a1 (by omega)
      have a2 := alloc_of_isSome_eq a1 (build_frame arr _ _ _ _ _ _ h2).2
      have kl := fits_node_lt (fits_left hf hlt)
      have kr := fits_node_lt (fits_right hf hlt)
      obtain ⟨x, hx⟩ := Option.isSome_iff_exists.1 (a2 _ kl.1 kl.2)
      obtain ⟨y, hy⟩ := Option.isSome_iff_exists.1 (a2 _ kr.1 kr.2)
      refine ⟨setSlot t2 k (x + y), ?_⟩
      simp only [h1, h2, readT, hx, hy, Option.some_bind]
      exact writeT_of_isSome _ (a2 k hk.1 hk.2)

theorem build_valid (arr : Int → Int) : ∀ (fuel : Nat) (t : Tree) (k : Nat) (s e : Int)
    (t' : Tree), 1 ≤ k → 0 ≤ s → s ≤ e → build fuel arr t k s e = some t' →
    Valid t' arr k s e := by
  intro fuel
  induction fuel with
  | zero => intro t k s e t' _ _ _ h; simp [build] at h
  | succ f ih =>
    intro t k s e t' hk hs hse h
    simp only [build] at h
    split at h
    · next heq =>
      subst heq
      obtain ⟨_, rfl⟩ := writeT_eq_some.1 h
      exact Valid.leaf (setSlot_same _ _ _)
    · next hne =>
      have hlt : s < e := lt_of_le_of_ne hse hne
      have hm := mid_ge hs hlt
      have hl := mid_lt hs hlt
      simp only [Option.bind_eq_some, readT] at h
      obtain ⟨t1, h1, t2, h2, x, hx, y, hy, hw⟩ := h
      obtain ⟨_, rfl⟩ := writeT_eq_some.1 hw
      have v1 := ih _ _ _ _ _ (by omega) hs hm h1
      have v2 := ih _ _ _ _ _ (by omega) (by omega) (by omega) h2
      have f2 := (build_frame arr _ _ _ _ _ _ h2).1
      have v1' : Valid t2 arr (2 * k) s ((s + e).tdiv 2) :=
        valid_frame v1 fun j hj => f2 j fun hr => inSub_disjoint hk hj hr
      have ex := valid_root v1'
      have ey := valid_root v2
      rw [hx] at ex; rw [hy] at ey
      have hxv : x = linearSum arr s ((s + e).tdiv 2) := Option.some.inj ex
      have hyv : y = linearSum arr ((s + e).tdiv 2 + 1) e := Option.some.inj ey
      refine Valid.node hlt ?_ ?_ ?_
      · exact valid_frame v1' fun j hj => setSlot_other _ _ (by
          rintro rfl; exact not_inSub_left_self hk hj)
      · exact valid_frame v2 fun j hj => setSlot_other _ _ (by
          rintro rfl; exact not_inSub_right_self hj)
      · rw [setSlot_same, hxv, hyv, ← linearSum_split arr (by omega) (by omega)]

/-! ### update -/

theorem update_frame : ∀ (fuel : Nat) (t : Tree) (k : Nat) (s e idx v : Int)
    (t' : Tree), update fuel t k s e idx v = some t' →
    (∀ j, ¬ InSub k j → t' j = t j) ∧ (∀ j, (t' j).isSome = (t j).isSome) := by
  intro fuel
  induction fuel with
  | zero => intro t k s e idx v t' h; simp [update] at h
  | succ f ih =>
    intro t k s e idx v t' h
    simp only [update] at h
    split at h
    · obtain ⟨ha, rfl⟩ := writeT_eq_some.1 h
      refine ⟨fun j hj => setSlot_other t _ ?_, setSlot_isSome t _ ha⟩
      rintro rfl; exact hj (inSub_self _)
    · simp only [Option.bind_eq_some, readT] at h
      obtain ⟨t1, h1, x, _, y, _, hw⟩ := h
      obtain ⟨ha, rfl⟩ := writeT_eq_some.1 hw
      have hsub : (∀ j, ¬ InSub k j → t1 j = t j) ∧ (∀ j, (t1 j).isSome = (t j).isSome) := by
        split at h1
        · obtain ⟨f1, a1⟩ := ih _ _ _ _ _ _ _ h1
          exact ⟨fun j hj => f1 j fun h => hj (inSub_left h), a1⟩
        · obtain ⟨f1, a1⟩ := ih _ _ _ _ _ _ _ h1
          exact ⟨fun j hj => f1 j fun h => hj (inSub_right h), a1⟩
      constructor
      · intro j hj
        have hjk : j ≠ k := by rintro rfl; exact hj (inSub_self _)
        rw [setSlot_other _ _ hjk, hsub.1 j hj]
      · intro j
        rw [setSlot_isSome _ _ ha, hsub.2]

theorem update_succeeds (n : Nat) : ∀ (fuel : Nat) (t : Tree) (p k : Nat)
    (s e idx v : Int), Fits n p k s e → Alloc n t → e - s < fuel →
    ∃ t', update fuel t k s e idx v = some t' := by
  intro fuel
  induction fuel with
  | zero => intro t p k s e idx v hf _ h; have := hf.2.1; omega
  | succ f ih =>
    intro t p k s e idx v hf ha hfuel
    have hk := fits_node_lt hf
    simp only [update]
    split
    · exact ⟨_, writeT_of_isSome _ (ha k hk.1 hk.2)⟩
    · next hne =>
      have hlt : s < e := lt_of_le_of_ne hf.2.1 hne
      have hm := mid_ge hf.1 hlt
      have hl := mid_lt hf.1 hlt
      have hsub : ∃ t1, (if idx ≤ (s + e).tdiv 2
          then update f t (2 * k) s ((s + e).tdiv 2) idx v
          else update f t (2 * k + 1) ((s + e).tdiv 2 + 1) e idx v) = some t1 := by
        split
        · exact ih t _ _ _ _ idx v (fits_left hf hlt) ha (by omega)
        · exact ih t _ _ _ _ idx v (fits_right hf hlt) ha (by omega)
      obtain ⟨t1, h1⟩ := hsub
      have a1 : Alloc n t1 := by
        refine alloc_of_isSome_eq ha ?_
        split at h1
        · exact (update_frame _ _ _ _ _ _ _ _ h1).2
        · exact (update_frame _ _ _ _ _ _ _ _ h1).2
      have kl := fits_node_lt (fits_left hf hlt)
      have kr := fits_node_lt (fits_right hf hlt)
      obtain ⟨x, hx⟩ := Option.isSome_iff_exists.1 (a1 _ kl.1 kl.2)
      obtain ⟨y, hy⟩ := Option.isSome_iff_exists.1 (a1 _ kr.1 kr.2)
      refine ⟨setSlot t1 k (x + y), ?_⟩
      simp only [h1, readT, hx, hy, Option.some_bind]
      exact writeT_of_isSome _ (a1 k hk.1 hk.2)

theorem update_valid : ∀ (fuel : Nat) (t : Tree) (a : Int → Int) (k : Nat)
    (s e idx v : Int) (t' : Tree), 1 ≤ k → 0 ≤ s → s ≤ idx → idx ≤ e → Valid t a k s e →
    update fuel t k s e idx v = some t' →
    Valid t' (fun i => if i = idx then v else a i) k s e := by
  intro fuel
  induction fuel with
  | zero => intro t a k s e idx v t' _ _ _ _ _ h; simp [update] at h
  | succ f ih =>
    intro t a k s e idx v t' hk hs hi1 hi2 hv h
    simp only [update] at h
    split at h
    · next heq =>
      subst heq
      obtain ⟨_, rfl⟩ := writeT_eq_some.1 h
      have : idx = s := by omega
      subst this
      exact Valid.leaf (by simp [setSlot_same])
    · next hne =>
      have hlt : s < e := by omega
      have hm := mid_ge hs hlt
      have hl := mid_lt hs hlt
      simp only [Option.bind_eq_some, readT] at h
      obtain ⟨t1, h1, x, hx, y, hy, hw⟩ := h
      obtain ⟨_, rfl⟩ := writeT_eq_some.1 hw
      have hvl : Valid t a (2 * k) s ((s + e).tdiv 2) := by
        cases hv with
        | leaf _ => exact absurd rfl hne
        | node _ hl _ _ => exact hl
      have hvr : Valid t a (2 * k + 1) ((s + e).tdiv 2 + 1) e := by
        cases hv with
        | leaf _ => exact absurd rfl hne
        | node _ _ hr _ => exact hr
      have hboth : Valid t1 (fun i => if i = idx then v else a i) (2 * k) s ((s + e).tdiv 2) ∧
          Valid t1 (fun i => if i = idx then v else a i) (2 * k + 1) ((s + e).tdiv 2 + 1) e := by
        split at h1
        · next hle =>
          have f1 := (update_frame _ _ _ _ _ _ _ _ h1).1
          refine ⟨ih _ _ _ _ _ _ _ _ (by omega) hs hi1 hle hvl h1, ?_⟩
          refine valid_congr (valid_frame hvr fun j hj => f1 j fun hh =>
            inSub_disjoint hk hh hj) (by omega) ?_
          intro i hi _
          have : i ≠ idx := by omega
          simp [this]
        · next hgt =>
          have f1 := (update_frame _ _ _ _ _ _ _ _ h1).1
          refine ⟨?_, ih _ _ _ _ _ _ _ _ (by omega) (by omega) (by omega) hi2 hvr h1⟩
          refine valid_congr (valid_frame hvl fun j hj => f1 j fun hh =>
            inSub_disjoint hk hj hh) hs ?_
          intro i _ hi
          have : i ≠ idx := by omega
          simp [this]
      have ex := valid_root hboth.1
      have ey := valid_root hboth.2
      rw [hx] at ex; rw [hy] at ey
      have hxv := Option.some.inj ex
      have hyv := Option.some.inj ey
      refine Valid.node hlt ?_ ?_ ?_
      · exact valid_frame hboth.1 fun j hj => setSlot_other _ _ (by
          rintro rfl; exact not_inSub_left_self hk hj)
      · exact valid_frame hboth.2 fun j hj => setSlot_other _ _ (by
          rintro rfl; exact not_inSub_right_self hj)
      · rw [setSlot_same, hxv, hyv, ← linearSum_split _ (by omega) (by omega)]

/-- An index left of the node's range is treated like the first position of
the range, an index right of it like the last one. -/
theorem update_clamp : ∀ (fuel : Nat) (t : Tree) (k : Nat) (s e idx v : Int),
    0 ≤ s → s ≤ e →
    (idx < s → update fuel t k s e idx v = update fuel t k s e s v) ∧
    (e < idx → update fuel t k s e idx v = update fuel t k s e e v) := by
  intro fuel
  induction fuel with
  | zero => intro t k s e idx v _ _; simp [update]
  | succ f ih =>
    intro t k s e idx v hs hse
    simp only [update]
    by_cases heq : s = e
    · simp [heq]
    · have hlt : s < e := by omega
      have hm := mid_ge hs hlt
      have hl := mid_lt hs hlt
      simp only [heq, if_false]
      constructor
      · intro hi
        have c1 : idx ≤ (s + e).tdiv 2 := by omega
        rw [if_pos c1, if_pos hm, (ih t (2 * k) s _ idx v hs hm).1 hi]
      · intro hi
        have c1 : ¬ idx ≤ (s + e).tdiv 2 := by omega
        have c2 : ¬ e ≤ (s + e).tdiv 2 := by omega
        rw [if_neg c1, if_neg c2, (ih t (2 * k + 1) _ e idx v (by omega) (by omega)).2 hi]

/-- Running `update` again on a tree that already agrees with the result on
the node's subtree changes nothing. -/
theorem update_again : ∀ (fuel : Nat) (t : Tree) (k : Nat) (s e idx v : Int) (t1 : Tree),
    1 ≤ k → update fuel t k s e idx v = some t1 →
    ∀ u : Tree, (∀ j, InSub k j → u j = t1 j) →
    ∃ u', update fuel u k s e idx v = some u' ∧
      (∀ j, InSub k j → u' j = t1 j) ∧ (∀ j, ¬ InSub k j → u' j = u j) := by
  intro fuel
  induction fuel with
  | zero => intro t k s e idx v t1 _ h; simp [update] at h
  | succ f ih =>
    intro t k s e idx v t1 hk h u hu
    simp only [update] at h ⊢
    split at h
    · next heq =>
      obtain ⟨_, rfl⟩ := writeT_eq_some.1 h
      have huk : u k = some v := by rw [hu k (inSub_self _), setSlot_same]
      rw [if_pos heq]
      refine ⟨_, writeT_of_isSome _ (by simp [huk]), ?_, ?_⟩
      · intro j hj
        by_cases hjk : j = k
        · subst hjk; simp [setSlot_same]
        · rw [setSlot_other _ _ hjk, hu j hj]
      · intro j hj
        exact setSlot_other _ _ (by rintro rfl; exact hj (inSub_self _))
    · next hne =>
      rw [if_neg hne]
      simp only [Option.bind_eq_some, readT] at h
      obtain ⟨ta, h1, x, hx, y, hy, hw⟩ := h
      obtain ⟨_, rfl⟩ := writeT_eq_some.1 hw
      have hl_ne : 2 * k ≠ k := by omega
      have hr_ne : 2 * k + 1 ≠ k := by omega
      have hu_in : ∀ j, InSub k j → j ≠ k → u j = ta j := fun j hj hjk => by
        rw [hu j hj, setSlot_other _ _ hjk]
      have huk : u k = some (x + y) := by rw [hu k (inSub_self _), setSlot_same]
      have hsub : ∃ ua, (if idx ≤ (s + e).tdiv 2
            then update f u (2 * k) s ((s + e).tdiv 2) idx v
            else update f u (2 * k + 1) ((s + e).tdiv 2 + 1) e idx v) = some ua ∧
          (∀ j, InSub k j → j ≠ k → ua j = ta j) ∧ (∀ j, ¬ InSub k j → ua j = u j) ∧
          ua k = u k := by
        split at h1
        · next hle =>
          rw [if_pos hle]
          obtain ⟨ua, e1, e2, e3⟩ := ih _ _ _ _ _ _ _ (by omega) h1 u fun j hj =>
            hu_in j (inSub_left hj) (by rintro rfl; exact not_inSub_left_self hk hj)
          refine ⟨ua, e1, ?_, fun j hj => e3 j fun hh => hj (inSub_left hh),
            e3 k (not_inSub_left_self hk)⟩
          intro j hj hjk
          by_cases hin : InSub (2 * k) j
          · exact e2 j hin
          · rw [e3 j hin, hu_in j hj hjk]
        · next hgt =>
          rw [if_neg hgt]
          obtain ⟨ua, e1, e2, e3⟩ := ih _ _ _ _ _ _ _ (by omega) h1 u fun j hj =>
            hu_in j (inSub_right hj) (by rintro rfl; exact not_inSub_right_self hj)
          refine ⟨ua, e1, ?_, fun j hj => e3 j fun hh => hj (inSub_right hh),
            e3 k not_inSub_right_self⟩
          intro j hj hjk
          by_cases hin : InSub (2 * k + 1) j
          · exact e2 j hin
          · rw [e3 j hin, hu_in j hj hjk]
      obtain ⟨ua, e1, e2, e3, e4⟩ := hsub
      have rx : ua (2 * k) = some x := by
        rw [e2 _ (inSub_left (inSub_self _)) hl_ne]; exact hx
      have ry : ua (2 * k + 1) = some y := by
        rw [e2 _ (inSub_right (inSub_self _)) hr_ne]; exact hy
      refine ⟨setSlot ua k (x + y), ?_, ?_, ?_⟩
      · simp only [e1, readT, rx, ry, Option.some_bind]
        exact writeT_of_isSome _ (by rw [e4, huk]; rfl)
      · intro j hj
        by_cases hjk : j = k
        · subst hjk; simp [setSlot_same]
        · rw [setSlot_other _ _ hjk, setSlot_other _ _ hjk, e2 j hj hjk]
      · intro j hj
        have hjk : j ≠ k := by rintro rfl; exact hj (inSub_self _)
        rw [setSlot_other _ _ hjk, e3 j hj]

/-! ### query -/

theorem query_valid : ∀ (fuel : Nat) (t : Tree) (a : Int → Int) (k : Nat) (s e l r : Int),
    0 ≤ s → e - s < fuel → Valid t a k s e →
    query fuel t k s e l r = some (linearSum a (max l s) (min r e)) := by
  intro fuel
  induction fuel with
  | zero => intro t a k s e l r _ h hv; have := valid_le hv; omega
  | succ f ih =>
    intro t a k s e l r hs hfuel hv
    have hse := valid_le hv
    simp only [query]
    split
    · next hd => rw [linearSum_empty]; omega
    · next hd =>
      split
      · next hc =>
        have h1 : max l s = s := by omega
        have h2 : min r e = e := by omega
        rw [h1, h2]; exact valid_root hv
      · next hc =>
        cases hv with
        | leaf _ => omega
        | node hlt hvl hvr _ =>
          have hm := mid_ge hs hlt
          have hl := mid_lt hs hlt
          rw [ih _ _ _ _ _ l r hs (by omega) hvl, ih _ _ _ _ _ l r (by omega) (by omega) hvr]
          simp only [Option.some_bind]
          congr 1
          by_cases c1 : r ≤ (s + e).tdiv 2
          · rw [linearSum_empty a (l := max l ((s + e).tdiv 2 + 1)) (by omega)]
            have : min r ((s + e).tdiv 2) = min r e := by omega
            rw [this]; omega
          · by_cases c2 : (s + e).tdiv 2 < l
            · rw [linearSum_empty a (r := min r ((s + e).tdiv 2)) (by omega)]
              have : max l ((s + e).tdiv 2 + 1) = max l s := by omega
              rw [this]; omega
            · have e1 : min r ((s + e).tdiv 2) = (s + e).tdiv 2 := by omega
              have e2 : max l ((s + e).tdiv 2 + 1) = (s + e).tdiv 2 + 1 := by omega
              rw [e1, e2, ← linearSum_split a (by omega) (by omega)]

theorem query_degenerate : ∀ (fuel : Nat) (t : Tree) (k : Nat) (s e l r : Int),
    0 ≤ s → s ≤ e → e - s < fuel → r < l → query fuel t k s e l r = some 0 := by
  intro fuel
  induction fuel with
  | zero => intro t k s e l r _ _ h _; omega
  | succ f ih =>
    intro t k s e l r hs hse hfuel hlr
    simp only [query]
    split
    · rfl
    · next hd =>
      have hc : ¬ (l ≤ s ∧ e ≤ r) := by omega
      rw [if_neg hc]
      have hlt : s < e := by omega
      have hm := mid_ge hs hlt
      have hl := mid_lt hs hlt
      rw [ih t _ _ _ l r hs hm (by omega) hlr, ih t _ _ _ l r (by omega) (by omega) (by omega) hlr]
      rfl

/-- With `start = 1` and `end = 0` every call of `build` recurses into its left
child with the same range, so no amount of fuel lets it return. -/
theorem build_empty_diverges (arr : Int → Int) : ∀ (fuel : Nat) (t : Tree) (k : Nat),
    build fuel arr t k 1 0 = none := by
  intro fuel
  induction fuel with
  | zero => intro t k; rfl
  | succ f ih =>
    intro t k
    simp only [build]
    have h : ((1 : Int) + 0).tdiv 2 = 0 := by decide
    rw [if_neg (by decide), h, ih]
    rfl

/-! ### Nodes reached from the root -/

theorem covers_fits {n : Nat} {lo hi : Int} (h0 : Fits n 1 1 lo hi) {k : Nat} {s e : Int}
    (h : Covers lo hi k s e) : ∃ p, Fits n p k s e := by
  induction h with
  | root => exact ⟨1, h0⟩
  | left _ hlt ih => obtain ⟨p, hp⟩ := ih; exact ⟨2 * p, fits_left hp hlt⟩
  | right _ hlt ih => obtain ⟨p, hp⟩ := ih; exact ⟨2 * p, fits_right hp hlt⟩

theorem covers_valid {t : Tree} {a : Int → Int} {lo hi : Int} (hv : Valid t a 1 lo hi)
    {k : Nat} {s e : Int} (h : Covers lo hi k s e) : Valid t a k s e := by
  induction h with
  | root => exact hv
  | left _ hlt ih =>
    cases ih with
    | leaf _ => omega
    | node _ hl _ _ => exact hl
  | right _ hlt ih =>
    cases ih with
    | leaf _ => omega
    | node _ _ hr _ => exact hr

/-! ### Whole runs: construction followed by updates -/

theorem wrap32_eq {x : Int} (h1 : -2 ^ 31 ≤ x) (h2 : x < 2 ^ 31) : wrap32 x = x := by
  unfold wrap32; omega

theorem callocInt_size (n : Nat) (hint : 4 * n + 4 < 2 ^ 31) :
    callocInt (wrap32 (4 * (n : Int) + 4)) = calloc (4 * n + 4) := by
  rw [wrap32_eq (by omega) (by omega)]
  unfold callocInt
  rw [if_neg (by omega)]
  congr 1

theorem build_needs_slot (arr : Int → Int) (fuel : Nat) (t : Tree) (k : Nat) (s e : Int)
    (t' : Tree) (h : build fuel arr t k s e = some t') : (t k).isSome = true := by
  cases fuel with
  | zero => simp [build] at h
  | succ f =>
    simp only [build] at h
    split at h
    · exact (writeT_eq_some.1 h).1
    · obtain ⟨t1, h1, h⟩ := Option.bind_eq_some.1 h
      obtain ⟨t2, h2, h⟩ := Option.bind_eq_some.1 h
      obtain ⟨x, _, h⟩ := Option.bind_eq_some.1 h
      obtain ⟨y, _, h⟩ := Option.bind_eq_some.1 h
      have h3 := (writeT_eq_some.1 h).1
      rw [(build_frame arr _ _ _ _ _ _ h2).2, (build_frame arr _ _ _ _ _ _ h1).2] at h3
      exact h3

theorem callocInt_overflow (n : Nat) (h1 : 2 ^ 31 ≤ 4 * n + 4) (h2 : 4 * n + 4 ≤ 2 ^ 32) :
    callocInt (wrap32 (4 * (n : Int) + 4)) 1 = none := by
  unfold callocInt wrap32
  by_cases h : 4 * n + 4 = 2 ^ 32
  · have e : (4 * (n : Int) + 4 + 2 ^ 31) % 2 ^ 32 - 2 ^ 31 = 0 := by omega
    rw [e]
    simp [calloc]
  · rw [if_pos (by omega)]

theorem construct_overflow (fuel : Nat) (arr : Int → Int) (n : Nat)
    (h1 : 2 ^ 31 ≤ 4 * n + 4) (h2 : 4 * n + 4 ≤ 2 ^ 32) : construct fuel arr n = none := by
  cases h : construct fuel arr n with
  | none => rfl
  | some t =>
    have := build_needs_slot arr fuel _ 1 1 n t h
    rw [callocInt_overflow n h1 h2] at this
    simp at this

theorem construct_valid (n : Nat) (a : Int → Int) (fuel : Nat) (hn : 1 ≤ n)
    (hint : 4 * n + 4 < 2 ^ 31) (hfuel : n ≤ fuel) :
    ∃ t, construct fuel a n = some t ∧ Valid t a 1 1 n ∧ Alloc n t := by
  have ha : Alloc n (callocInt (wrap32 (4 * (n : Int) + 4))) := by
    rw [callocInt_size n hint]; exact alloc_calloc n _ (by omega)
  obtain ⟨t, ht⟩ := build_succeeds a n fuel _ 1 1 1 n (fits_root hn) ha (by omega)
  refine ⟨t, ht, build_valid a fuel _ 1 1 n t (le_refl _) (by omega) (by omega) ht, ?_⟩
  exact alloc_of_isSome_eq ha (build_frame a _ _ _ _ _ _ ht).2

theorem updates_valid (n : Nat) (fuel : Nat) (hn : 1 ≤ n) (hfuel : n ≤ fuel) :
    ∀ (us : List (Int × Int)) (t : Tree) (a : Int → Int),
    (∀ u ∈ us, 1 ≤ u.1 ∧ u.1 ≤ n) → Valid t a 1 1 n → Alloc n t →
    ∃ t', updates fuel n t us = some t' ∧ Valid t' (applyUpdates a us) 1 1 n ∧ Alloc n t' := by
  intro us
  induction us with
  | nil => intro t a _ hv ha; exact ⟨t, rfl, hv, ha⟩
  | cons u rest ih =>
    intro t a hus hv ha
    obtain ⟨idx, val⟩ := u
    have hu := hus (idx, val) (List.mem_cons_self _ _)
    obtain ⟨t1, h1⟩ := update_succeeds n fuel t 1 1 1 n idx val (fits_root hn) ha (by omega)
    have v1 := update_valid fuel t a 1 1 n idx val t1 (le_refl _) (by omega) hu.1 hu.2 hv h1
    have a1 := alloc_of_isSome_eq ha (update_frame _ _ _ _ _ _ _ _ h1).2
    obtain ⟨t', h2, v2, a2⟩ := ih t1 _ (fun u hu => hus u (List.mem_cons_of_mem _ hu)) v1 a1
    exact ⟨t', by simp only [updates, h1, Option.some_bind]; exact h2, v2, a2⟩

theorem run_valid (n : Nat) (a : Int → Int) (us : List (Int × Int)) (fuel : Nat)
    (hn : 1 ≤ n) (hint : 4 * n + 4 < 2 ^ 31) (hus : ∀ u ∈ us, 1 ≤ u.1 ∧ u.1 ≤ n)
    (hfuel : n ≤ fuel) :
    ∃ t, ((construct fuel a n).bind fun t0 => updates fuel n t0 us) = some t ∧
      Valid t (applyUpdates a us) 1 1 n ∧ Alloc n t := by
  obtain ⟨t0, h0, v0, a0⟩ := construct_valid n a fuel hn hint hfuel
  obtain ⟨t, h1, v1, a1⟩ := updates_valid n fuel hn hfuel us t0 a hus v0 a0
  exact ⟨t, by simp only [h0, Option.some_bind]; exact h1, v1, a1⟩

/-! ### The C++ variant -/

/-- C1, as stated, fails: for `n = 2^29 - 1 = 536870911` the `int` expression
`4 * n + 4` of `main` overflows, `calloc` returns no block, `build(arr, 1, 1, n)`
faults on its first store and no query is answered; so no run yields a tree on
which `query(1, 1, n, 1, 1)` is the linear-scan sum. -/
theorem range_sum_counterexample :
    ¬ ∃ (fuel : Nat) (t : Tree),
      ((construct fuel (fun _ => 0) 536870911).bind fun t0 =>
        updates fuel 536870911 t0 []) = some t ∧
      query fuel t 1 1 ((536870911 : Nat) : Int) 1 1 =
        some (linearSum (applyUpdates (fun _ => 0) []) 1 1) := by
  rintro ⟨fuel, t, h, _⟩
  rw [construct_overflow fuel _ 536870911 (by norm_num) (by norm_num)] at h
  simp at h

/-- C1, amended: range-sum correctness. For `n >= 1` with `4 * n + 4` representable
in `int` (`n <= 2^29 - 2`), any initial array, any sequence of in-range updates
applied after `build(arr, 1, 1, n)` and any `1 <= l <= r <= n`, the run returns
(fuel `n` suffices) and `query(1, 1, n, l, r)` is the linear-scan sum of the
updated array over `[l, r]`. -/
theorem range_sum_correct (n : Nat) (a : Int → Int) (us : List (Int × Int)) (l r : Int)
    (fuel : Nat) (hn : 1 ≤ n) (hint : 4 * n + 4 < 2 ^ 31)
    (hus : ∀ u ∈ us, 1 ≤ u.1 ∧ u.1 ≤ n)
    (hl : 1 ≤ l) (_hlr : l ≤ r) (hr : r ≤ n) (hfuel : n ≤ fuel) :
    ∃ t, ((construct fuel a n).bind fun t0 => updates fuel n t0 us) = some t ∧
      query fuel t 1 1 n l r = some (linearSum (applyUpdates a us) l r) := by
  obtain ⟨t, ht, hv, _⟩ := run_valid n a us fuel hn hint hus hfuel
  refine ⟨t, ht, ?_⟩
  rw [query_valid fuel t _ 1 1 n l r (by omega) (by omega) hv]
  have h1 : max l 1 = l := by omega
  have h2 : min r (n : Int) = r := by omega
  rw [h1, h2]

theorem range_sum_correct_witness :
    (1 ≤ 6 ∧ 4 * 6 + 4 < 2 ^ 31 ∧
      (∀ u ∈ [((3 : Int), (10 : Int))], 1 ≤ u.1 ∧ u.1 ≤ ((6 : Nat) : Int)) ∧
      (1 : Int) ≤ 2 ∧ (2 : Int) ≤ 5 ∧ (5 : Int) ≤ ((6 : Nat) : Int) ∧ 6 ≤ 6) ∧
    ∃ t, ((construct 6 scenarioArr 6).bind fun t0 => updates 6 6 t0 [(3, 10)]) = some t ∧
      query 6 t 1 1 ((6 : Nat) : Int) 2 5 =
        some (linearSum (applyUpdates scenarioArr [(3, 10)]) 2 5) :=
  ⟨by decide, range_sum_correct 6 scenarioArr [(3, 10)] 2 5 6 (by decide) (by decide)
    (by decide) (by decide) (by decide) (by decide) (by decide)⟩

/-- C2, as stated, fails: for `n = 2^29 - 1 = 536870911` (array of ones, no
update) `build(arr, 1, 1, n)` does not complete, because `main` obtained no block
from `calloc`: there is no tree after `build` whose root holds
`tree[2] + tree[3]`. -/
theorem node_invariant_counterexample :
    ¬ ∃ (fuel : Nat) (t : Tree),
      construct fuel (fun _ => 1) 536870911 = some t ∧
      ∃ x y, t 2 = some x ∧ t 3 = some y ∧ t 1 = some (x + y) := by
  rintro ⟨fuel, t, h, _⟩
  rw [construct_overflow fuel _ 536870911 (by norm_num) (by norm_num)] at h
  simp at h

/-- C2, amended: node invariant. For `n >= 1` with `4 * n + 4` representable in
`int` (`n <= 2^29 - 2`), after `build(arr, 1, 1, n)` and any sequence of in-range
updates, every node reached from the root satisfies: an inner node
(`start < end`) has `tree[k] = tree[2k] + tree[2k+1]`, and a leaf over `[i, i]`
holds the current value of position `i`. -/
theorem node_invariant (n : Nat) (a : Int → Int) (us : List (Int × Int)) (fuel : Nat)
    (hn : 1 ≤ n) (hint : 4 * n + 4 < 2 ^ 31) (hus : ∀ u ∈ us, 1 ≤ u.1 ∧ u.1 ≤ n)
    (hfuel : n ≤ fuel) :
    ∃ t, ((construct fuel a n).bind fun t0 => updates fuel n t0 us) = some t ∧
      ∀ (k : Nat) (s e : Int), Covers 1 n k s e →
        (s < e → ∃ x y, t (2 * k) = some x ∧ t (2 * k + 1) = some y ∧ t k = some (x + y)) ∧
        (s = e → t k = some (applyUpdates a us s)) := by
  obtain ⟨t, ht, hv, _⟩ := run_valid n a us fuel hn hint hus hfuel
  refine ⟨t, ht, ?_⟩
  intro k s e hc
  have hk := covers_valid hv hc
  obtain ⟨p, hp⟩ := covers_fits (fits_root hn) hc
  constructor
  · intro hlt
    cases hk with
    | leaf _ => omega
    | node _ hl hr hroot =>
      refine ⟨_, _, valid_root hl, valid_root hr, ?_⟩
      rw [hroot, ← linearSum_split _ (by have := mid_ge hp.1 hlt; omega)
        (by have := mid_lt hp.1 hlt; omega)]
  · intro heq
    subst heq
    rw [valid_root hk, linearSum_single]

theorem node_invariant_witness :
    (1 ≤ 6 ∧ 4 * 6 + 4 < 2 ^ 31 ∧
      (∀ u ∈ [((3 : Int), (10 : Int))], 1 ≤ u.1 ∧ u.1 ≤ ((6 : Nat) : Int)) ∧ 6 ≤ 6) ∧
    ∃ t, ((construct 6 scenarioArr 6).bind fun t0 => updates 6 6 t0 [(3, 10)]) = some t ∧
      ∀ (k : Nat) (s e : Int), Covers 1 ((6 : Nat) : Int) k s e →
        (s < e → ∃ x y, t (2 * k) = some x ∧ t (2 * k + 1) = some y ∧ t k = some (x + y)) ∧
        (s = e → t k = some (applyUpdates scenarioArr [(3, 10)] s)) :=
  ⟨by decide, node_invariant 6 scenarioArr [(3, 10)] 6 (by decide) (by decide) (by decide)
    (by decide)⟩

/-- C3: degenerate range. For `n >= 1`, any content of the tree array and any
`l > r` (in range or not), the C `query(1, 1, n, l, r)` returns 0 (fuel `n`
suffices), through its disjointness test only; the C++ `query` returns 0 on its
first test. -/
theorem query_degenerate_range (n : Nat) (t : Tree) (l r : Int) (fuel : Nat)
    (hn : 1 ≤ n) (hlr : r < l) (hfuel : n ≤ fuel) :
    query fuel t 1 1 n l r = some 0 ∧ queryCpp fuel t 1 0 ((n : Int) - 1) l r = some 0 := by
  refine ⟨query_degenerate fuel t 1 1 n l r (by omega) (by omega) (by omega) hlr, ?_⟩
  obtain ⟨f, rfl⟩ : ∃ f, fuel = f + 1 := ⟨fuel - 1, by omega⟩
  simp only [queryCpp]
  rw [if_pos (by omega)]

theorem query_degenerate_range_witness :
    (1 ≤ 6 ∧ (2 : Int) < 5 ∧ 6 ≤ 6) ∧
    (query 6 (calloc 28) 1 1 ((6 : Nat) : Int) 5 2 = some 0 ∧
      queryCpp 6 (calloc 28) 1 0 (((6 : Nat) : Int) - 1) 5 2 = some 0) :=
  ⟨by decide, query_degenerate_range 6 (calloc 28) 5 2 6 (by decide) (by decide) (by decide)⟩

/-- C4: idempotence of update. For `n >= 1`, any tree array with slots
`1 .. 4n - 1` allocated, any `1 <= idx <= n` and any value, `update(1, 1, n, idx, v)`
returns, and running it a second time leaves the array exactly as it was after
the first run. -/
theorem update_idempotent (n : Nat) (t : Tree) (idx v : Int) (fuel : Nat)
    (hn : 1 ≤ n) (_h1 : 1 ≤ idx) (_h2 : idx ≤ n) (ha : Alloc n t) (hfuel : n ≤ fuel) :
    ∃ t1, update fuel t 1 1 n idx v = some t1 ∧ update fuel t1 1 1 n idx v = some t1 := by
  obtain ⟨t1, ht1⟩ := update_succeeds n fuel t 1 1 1 n idx v (fits_root hn) ha (by omega)
  refine ⟨t1, ht1, ?_⟩
  obtain ⟨u, hu, e1, e2⟩ := update_again fuel t 1 1 n idx v t1 (le_refl _) ht1 t1
    (fun _ _ => rfl)
  rw [hu]
  congr 1
  funext j
  by_cases hj : InSub 1 j
  · exact e1 j hj
  · exact e2 j hj

theorem update_idempotent_witness :
    (1 ≤ 6 ∧ (1 : Int) ≤ 3 ∧ (3 : Int) ≤ ((6 : Nat) : Int) ∧ Alloc 6 (calloc 28) ∧ 6 ≤ 6) ∧
    ∃ t1, update 6 (calloc 28) 1 1 ((6 : Nat) : Int) 3 10 = some t1 ∧
      update 6 t1 1 1 ((6 : Nat) : Int) 3 10 = some t1 :=
  ⟨⟨by decide, by decide, by decide, alloc_calloc 6 28 (by decide), by decide⟩,
    update_idempotent 6 (calloc 28) 3 10 6 (by decide) (by decide) (by decide)
      (alloc_calloc 6 28 (by decide)) (by decide)⟩

/-- C5: concrete scenario. On `[1,3,5,7,9,11]` (1-indexed, `n = 6`),
`query(1,1,6,1,6)` is 36; after `update(1,1,6,3,10)`, `query(1,1,6,1,3)` is 14,
`query(1,1,6,4,6)` is 27 and `query(1,1,6,1,6)` is 41. -/
theorem concrete_scenario :
    ((construct 6 scenarioArr 6).bind fun t => query 6 t 1 1 6 1 6) = some 36 ∧
    ((construct 6 scenarioArr 6).bind fun t => (update 6 t 1 1 6 3 10).bind fun t1 =>
      query 6 t1 1 1 6 1 3) = some 14 ∧
    ((construct 6 scenarioArr 6).bind fun t => (update 6 t 1 1 6 3 10).bind fun t1 =>
      query 6 t1 1 1 6 4 6) = some 27 ∧
    ((construct 6 scenarioArr 6).bind fun t => (update 6 t 1 1 6 3 10).bind fun t1 =>
      query 6 t1 1 1 6 1 6) = some 41 := by
  refine ⟨by decide, by decide, by decide, by decide⟩

/-- C6, as stated, fails: on the tree built from `[5, 6]` (`n = 2`) the
out-of-range `update(1, 1, 2, 3, 7)` is carried out and overwrites position 2
(`query(1,1,2,1,2)` goes from 11 to 12), and `update(1, 1, 2, 0, 7)` overwrites
position 1 (`query(1,1,2,1,1)` goes from 5 to 7). -/
theorem update_out_of_range_counterexample :
    ((construct 2 (fun i => if i = 1 then 5 else 6) 2).bind fun t =>
      query 2 t 1 1 2 1 2) = some 11 ∧
    ((construct 2 (fun i => if i = 1 then 5 else 6) 2).bind fun t =>
      (update 2 t 1 1 2 3 7).bind fun t1 => query 2 t1 1 1 2 1 2) = some 12 ∧
    ((construct 2 (fun i => if i = 1 then 5 else 6) 2).bind fun t =>
      query 2 t 1 1 2 1 1) = some 5 ∧
    ((construct 2 (fun i => if i = 1 then 5 else 6) 2).bind fun t =>
      (update 2 t 1 1 2 0 7).bind fun t1 => query 2 t1 1 1 2 1 1) = some 7 := by
  refine ⟨by decide, by decide, by decide, by decide⟩

/-- C6, amended: an out-of-range update is not rejected. For `n >= 1` and any
tree array, `update(1, 1, n, idx, val)` does exactly what the update at the
nearest in-range position does: position 1 when `idx < 1`, position `n` when
`idx > n` (and `idx` itself when it is in range). -/
theorem update_out_of_range_clamps (n : Nat) (t : Tree) (idx val : Int) (fuel : Nat)
    (hn : 1 ≤ n) :
    update fuel t 1 1 n idx val = update fuel t 1 1 n (max 1 (min idx n)) val := by
  have h := update_clamp fuel t 1 1 n idx val (by omega) (by omega)
  rcases lt_trichotomy idx 1 with h1 | h1 | h1
  · have e : max 1 (min idx (n : Int)) = 1 := by omega
    rw [e]; exact h.1 h1
  · have e : max 1 (min idx (n : Int)) = idx := by omega
    rw [e]
  · by_cases h2 : (n : Int) < idx
    · have e : max 1 (min idx (n : Int)) = n := by omega
      rw [e]; exact h.2 h2
    · have e : max 1 (min idx (n : Int)) = idx := by omega
      rw [e]

theorem update_out_of_range_clamps_witness :
    1 ≤ 2 ∧
    update 2 (calloc 12) 1 1 ((2 : Nat) : Int) 5 7 =
      update 2 (calloc 12) 1 1 ((2 : Nat) : Int) (max 1 (min 5 ((2 : Nat) : Int))) 7 :=
  ⟨by decide, update_out_of_range_clamps 2 (calloc 12) 5 7 2 (by decide)⟩

/-- C7 at its failing input: for the empty sequence (`n = 0`) the construction
of `main`, `build(arr, 1, 1, 0)` on the `calloc(4)` block, returns for no amount
of fuel, and neither does the call on any other tree array: the recursion never
reaches `start == end`. -/
theorem construct_empty_never_returns (fuel : Nat) (arr : Int → Int) :
    construct fuel arr 0 = none ∧ ∀ t : Tree, build fuel arr t 1 1 0 = none :=
  ⟨build_empty_diverges arr fuel _ 1, fun t => build_empty_diverges arr fuel t 1⟩

theorem wrap64_eq {x : Int} (h1 : -2 ^ 63 ≤ x) (h2 : x < 2 ^ 63) : wrap64 x = x := by
  unfold wrap64; omega

theorem scan_bound (a : Int → Int) (B : Int) : ∀ (cnt : Nat) (l : Int),
    (∀ i, l ≤ i → i < l + cnt → -B ≤ a i ∧ a i ≤ B) →
    -(cnt * B) ≤ scan a l cnt ∧ scan a l cnt ≤ cnt * B := by
  intro cnt
  induction cnt with
  | zero => intro l _; simp [scan]
  | succ c ih =>
    intro l h
    have h0 := h l (le_refl _) (by push_cast; omega)
    have h1 := ih (l + 1) fun i hi1 hi2 => h i (by omega) (by push_cast; omega)
    simp only [scan]
    push_cast
    constructor <;> nlinarith

theorem linearSum_bound (a : Int → Int) (n : Nat) {s e l r : Int} (hs : s ≤ l) (he : r ≤ e)
    (hn : e + 1 - s ≤ n) (ha : ∀ i, s ≤ i → i ≤ e → inInt32 (a i)) :
    -((n : Int) * 2 ^ 31) ≤ linearSum a l r ∧ linearSum a l r ≤ (n : Int) * 2 ^ 31 := by
  have hb := scan_bound a (2 ^ 31) (r + 1 - l).toNat l (by
    intro i h1 h2
    have := ha i (by omega) (by omega)
    unfold inInt32 at this
    omega)
  unfold linearSum
  have hc : (((r + 1 - l).toNat : Nat) : Int) ≤ n := by omega
  constructor <;> nlinarith

theorem applyUpdates_int32 (n : Nat) : ∀ (us : List (Int × Int)) (a : Int → Int),
    (∀ i : Int, 1 ≤ i → i ≤ n → inInt32 (a i)) → (∀ u ∈ us, inInt32 u.2) →
    ∀ i : Int, 1 ≤ i → i ≤ n → inInt32 (applyUpdates a us i) := by
  intro us
  induction us with
  | nil => intro a ha _; exact ha
  | cons u rest ih =>
    intro a ha hus
    obtain ⟨idx, val⟩ := u
    simp only [applyUpdates]
    refine ih _ ?_ fun u hu => hus u (List.mem_cons_of_mem _ hu)
    intro i h1 h2
    by_cases hi : i = idx
    · simp only [hi, if_true]; exact hus (idx, val) (List.mem_cons_self _ _)
    · simp only [hi, if_false]; exact ha i h1 h2

theorem buildLL_eq (arr : Int → Int) (n : Nat) (hn : n < 2 ^ 29) : ∀ (fuel : Nat) (t : Tree)
    (k : Nat) (s e : Int), 1 ≤ k → 0 ≤ s → s ≤ e → e + 1 - s ≤ n →
    (∀ i, s ≤ i → i ≤ e → inInt32 (arr i)) →
    buildLL fuel arr t k s e = build fuel arr t k s e := by
  intro fuel
  induction fuel with
  | zero => intro t k s e _ _ _ _ _; rfl
  | succ f ih =>
    intro t k s e hk hs hse hsz ha
    simp only [buildLL, build]
    split
    · rfl
    · next hne =>
      have hlt : s < e := lt_of_le_of_ne hse hne
      have hm := mid_ge hs hlt
      have hl := mid_lt hs hlt
      rw [ih t (2 * k) s _ (by omega) hs hm (by omega) fun i h1 h2 => ha i h1 (by omega)]
      cases h1 : build f arr t (2 * k) s ((s + e).tdiv 2) with
      | none => rfl
      | some t1 =>
        simp only [Option.some_bind]
        rw [ih t1 (2 * k + 1) _ e (by omega) (by omega) (by omega) (by omega)
          fun i h1 h2 => ha i (by omega) h2]
        cases h2 : build f arr t1 (2 * k + 1) ((s + e).tdiv 2 + 1) e with
        | none => rfl
        | some t2 =>
          simp only [Option.some_bind, readT]
          cases hx : t2 (2 * k) with
          | none => rfl
          | some x =>
            cases hy : t2 (2 * k + 1) with
            | none => rfl
            | some y =>
              simp only [Option.some_bind]
              have v1 := build_valid arr f t (2 * k) s _ t1 (by omega) hs hm h1
              have v2 := build_valid arr f t1 (2 * k + 1) _ e t2 (by omega) (by omega)
                (by omega) h2
              have f2 := (build_frame arr _ _ _ _ _ _ h2).1
              have ex := valid_root (valid_frame v1 fun j hj => f2 j fun hr =>
                inSub_disjoint hk hj hr)
              have ey := valid_root v2
              rw [hx] at ex; rw [hy] at ey
              have hxy : x + y = linearSum arr s e := by
                rw [Option.some.inj ex, Option.some.inj ey,
                  ← linearSum_split arr (by omega) (by omega)]
              have hb := linearSum_bound arr n (le_refl s) (le_refl e) hsz ha
              rw [wrap64_eq (by rw [hxy]; omega) (by rw [hxy]; omega)]

theorem update_children_valid (f : Nat) (t : Tree) (a : Int → Int) (k : Nat)
    (s e idx v : Int) (t1 : Tree) (hk : 1 ≤ k) (hs : 0 ≤ s) (hlt : s < e)
    (hi1 : s ≤ idx) (hi2 : idx ≤ e)
    (hvl : Valid t a (2 * k) s ((s + e).tdiv 2))
    (hvr : Valid t a (2 * k + 1) ((s + e).tdiv 2 + 1) e)
    (h1 : (if idx ≤ (s + e).tdiv 2 then update f t (2 * k) s ((s + e).tdiv 2) idx v
      else update f t (2 * k + 1) ((s + e).tdiv 2 + 1) e idx v) = some t1) :
    Valid t1 (fun i => if i = idx then v else a i) (2 * k) s ((s + e).tdiv 2) ∧
    Valid t1 (fun i => if i = idx then v else a i) (2 * k + 1) ((s + e).tdiv 2 + 1) e := by
  have hm := mid_ge hs hlt
  have hl := mid_lt hs hlt
  split at h1
  · next hle =>
    have f1 := (update_frame _ _ _ _ _ _ _ _ h1).1
    refine ⟨update_valid _ _ _ _ _ _ _ _ _ (by omega) hs hi1 hle hvl h1, ?_⟩
    refine valid_congr (valid_frame hvr fun j hj => f1 j fun hh =>
      inSub_disjoint hk hh hj) (by omega) ?_
    intro i hi _
    have : i ≠ idx := by omega
    simp [this]
  · next hgt =>
    have f1 := (update_frame _ _ _ _ _ _ _ _ h1).1
    refine ⟨?_, update_valid _ _ _ _ _ _ _ _ _ (by omega) (by omega) (by omega) hi2 hvr h1⟩
    refine valid_congr (valid_frame hvl fun j hj => f1 j fun hh =>
      inSub_disjoint hk hj hh) hs ?_
    intro i _ hi
    have : i ≠ idx := by omega
    simp [this]

theorem updateLL_eq (n : Nat) (hn : n < 2 ^ 29) : ∀ (fuel : Nat) (t : Tree) (a : Int → Int)
    (k : Nat) (s e idx v : Int), 1 ≤ k → 0 ≤ s → s ≤ idx → idx ≤ e → e + 1 - s ≤ n →
    Valid t a k s e → (∀ i, s ≤ i → i ≤ e → inInt32 (a i)) → inInt32 v →
    updateLL fuel t k s e idx v = update fuel t k s e idx v := by
  intro fuel
  induction fuel with
  | zero => intro t a k s e idx v _ _ _ _ _ _ _ _; rfl
  | succ f ih =>
    intro t a k s e idx v hk hs hi1 hi2 hsz hv ha hval
    simp only [updateLL, update]
    split
    · rfl
    · next hne =>
      have hlt : s < e := by omega
      have hm := mid_ge hs hlt
      have hl := mid_lt hs hlt
      have hvl : Valid t a (2 * k) s ((s + e).tdiv 2) := by
        cases hv with
        | leaf _ => exact absurd rfl hne
        | node _ hl _ _ => exact hl
      have hvr : Valid t a (2 * k + 1) ((s + e).tdiv 2 + 1) e := by
        cases hv with
        | leaf _ => exact absurd rfl hne
        | node _ _ hr _ => exact hr
      have hsub : (if idx ≤ (s + e).tdiv 2
            then updateLL f t (2 * k) s ((s + e).tdiv 2) idx v
            else updateLL f t (2 * k + 1) ((s + e).tdiv 2 + 1) e idx v) =
          (if idx ≤ (s + e).tdiv 2 then update f t (2 * k) s ((s + e).tdiv 2) idx v
            else update f t (2 * k + 1) ((s + e).tdiv 2 + 1) e idx v) := by
        split
        · next hle =>
          exact ih t a _ _ _ idx v (by omega) hs hi1 hle (by omega) hvl
            (fun i h1 h2 => ha i h1 (by omega)) hval
        · next hgt =>
          exact ih t a _ _ _ idx v (by omega) (by omega) (by omega) hi2 (by omega) hvr
            (fun i h1 h2 => ha i (by omega) h2) hval
      rw [hsub]
      cases h1 : (if idx ≤ (s + e).tdiv 2 then update f t (2 * k) s ((s + e).tdiv 2) idx v
            else update f t (2 * k + 1) ((s + e).tdiv 2 + 1) e idx v) with
      | none => rfl
      | some t1 =>
        simp only [Option.some_bind, readT]
        cases hx : t1 (2 * k) with
        | none => rfl
        | some x =>
          cases hy : t1 (2 * k + 1) with
          | none => rfl
          | some y =>
            simp only [Option.some_bind]
            obtain ⟨v1, v2⟩ := update_children_valid f t a k s e idx v t1 hk hs hlt hi1 hi2
              hvl hvr h1
            have ex := valid_root v1
            have ey := valid_root v2
            rw [hx] at ex; rw [hy] at ey
            have hxy : x + y = linearSum (fun i => if i = idx then v else a i) s e := by
              rw [Option.some.inj ex, Option.some.inj ey,
                ← linearSum_split _ (by omega) (by omega)]
            have hb := linearSum_bound (fun i => if i = idx then v else a i) n
              (le_refl s) (le_refl e) hsz (by
                intro i h1 h2
                by_cases hi : i = idx
                · simp only [hi, if_true]; exact hval
                · simp only [hi, if_false]; exact ha i h1 h2)
            rw [wrap64_eq (by rw [hxy]; omega) (by rw [hxy]; omega)]

theorem queryLL_eq (n : Nat) (hn : n < 2 ^ 29) : ∀ (fuel : Nat) (t : Tree) (a : Int → Int)
    (k : Nat) (s e l r : Int), 0 ≤ s → e - s < fuel → e + 1 - s ≤ n →
    Valid t a k s e → (∀ i, s ≤ i → i ≤ e → inInt32 (a i)) →
    queryLL fuel t k s e l r = query fuel t k s e l r := by
  intro fuel
  induction fuel with
  | zero => intro t a k s e l r _ _ _ _ _; rfl
  | succ f ih =>
    intro t a k s e l r hs hfuel hsz hv ha
    have hq := query_valid (f + 1) t a k s e l r hs hfuel hv
    simp only [queryLL, query] at hq ⊢
    by_cases hd : r < s ∨ e < l
    · rw [if_pos hd, if_pos hd]
    · rw [if_neg hd] at hq
      rw [if_neg hd, if_neg hd]
      by_cases hc : l ≤ s ∧ e ≤ r
      · rw [if_pos hc, if_pos hc]
      · rw [if_neg hc] at hq
        rw [if_neg hc, if_neg hc]
        cases hv with
        | leaf _ => omega
        | node hlt hvl hvr _ =>
          have hm := mid_ge hs hlt
          have hl := mid_lt hs hlt
          rw [ih t a _ _ _ l r hs (by omega) (by omega) hvl fun i h1 h2 => ha i h1 (by omega),
            ih t a _ _ _ l r (by omega) (by omega) (by omega) hvr
              fun i h1 h2 => ha i (by omega) h2]
          rw [query_valid f t a _ _ _ l r hs (by omega) hvl,
            query_valid f t a _ _ _ l r (by omega) (by omega) hvr] at hq ⊢
          simp only [Option.some_bind] at hq ⊢
          have hxy := Option.some.inj hq
          have hb := linearSum_bound a n (l := max l s) (r := min r e) (by omega) (by omega)
            hsz ha
          rw [wrap64_eq (by rw [hxy]; omega) (by rw [hxy]; omega)]

theorem covers_range {lo hi : Int} (h0 : 0 ≤ lo) (h1 : lo ≤ hi) {k : Nat} {s e : Int}
    (h : Covers lo hi k s e) : lo ≤ s ∧ s ≤ e ∧ e ≤ hi := by
  induction h with
  | root => omega
  | left _ hlt ih =>
    have hm := mid_ge (by omega) hlt
    have hl := mid_lt (by omega) hlt
    omega
  | right _ hlt ih =>
    have hm := mid_ge (by omega) hlt
    have hl := mid_lt (by omega) hlt
    omega

theorem constructLL_eq (n : Nat) (a : Int → Int) (fuel : Nat) (hn : 1 ≤ n) (hn29 : n < 2 ^ 29)
    (ha : ∀ i : Int, 1 ≤ i → i ≤ n → inInt32 (a i)) :
    constructLL fuel a n = construct fuel a n :=
  buildLL_eq a n hn29 fuel _ 1 1 n (le_refl _) (by omega) (by omega) (by omega) ha

theorem updatesLL_eq (n : Nat) (fuel : Nat) (hn29 : n < 2 ^ 29) :
    ∀ (us : List (Int × Int)) (t : Tree) (a : Int → Int),
    (∀ u ∈ us, (1 ≤ u.1 ∧ u.1 ≤ n) ∧ inInt32 u.2) → Valid t a 1 1 n →
    (∀ i : Int, 1 ≤ i → i ≤ n → inInt32 (a i)) →
    updatesLL fuel n t us = updates fuel n t us := by
  intro us
  induction us with
  | nil => intro t a _ _ _; rfl
  | cons u rest ih =>
    intro t a hus hv ha
    obtain ⟨idx, val⟩ := u
    have hu := hus (idx, val) (List.mem_cons_self _ _)
    simp only [updatesLL, updates]
    rw [updateLL_eq n hn29 fuel t a 1 1 n idx val (le_refl _) (by omega) hu.1.1 hu.1.2
      (by omega) hv ha hu.2]
    cases h1 : update fuel t 1 1 n idx val with
    | none => rfl
    | some t1 =>
      simp only [Option.some_bind]
      have v1 := update_valid fuel t a 1 1 n idx val t1 (le_refl _) (by omega) hu.1.1 hu.1.2
        hv h1
      refine ih t1 _ (fun u hu => hus u (List.mem_cons_of_mem _ hu)) v1 ?_
      intro i h1 h2
      by_cases hi : i = idx
      · simp only [hi, if_true]; exact hu.2
      · simp only [hi, if_false]; exact ha i h1 h2

theorem updates_preserve (n : Nat) (fuel : Nat) :
    ∀ (us : List (Int × Int)) (t : Tree) (a : Int → Int) (t' : Tree),
    (∀ u ∈ us, 1 ≤ u.1 ∧ u.1 ≤ n) → Valid t a 1 1 n → updates fuel n t us = some t' →
    Valid t' (applyUpdates a us) 1 1 n := by
  intro us
  induction us with
  | nil =>
    intro t a t' _ hv h
    simp only [updates, Option.some.injEq] at h
    subst h
    exact hv
  | cons u rest ih =>
    intro t a t' hus hv h
    obtain ⟨idx, val⟩ := u
    have hu := hus (idx, val) (List.mem_cons_self _ _)
    simp only [updates] at h
    obtain ⟨t1, h1, h2⟩ := Option.bind_eq_some.1 h
    have v1 := update_valid fuel t a 1 1 n idx val t1 (le_refl _) (by omega) hu.1 hu.2 hv h1
    exact ih t1 _ t' (fun u hu => hus u (List.mem_cons_of_mem _ hu)) v1 h2

theorem runLL_eq (n : Nat) (a : Int → Int) (us : List (Int × Int)) (fuel : Nat)
    (hn : 1 ≤ n) (hn29 : n < 2 ^ 29) (ha : ∀ i : Int, 1 ≤ i → i ≤ n → inInt32 (a i))
    (hus : ∀ u ∈ us, (1 ≤ u.1 ∧ u.1 ≤ n) ∧ inInt32 u.2) :
    ((constructLL fuel a n).bind fun t0 => updatesLL fuel n t0 us) =
      ((construct fuel a n).bind fun t0 => updates fuel n t0 us) := by
  rw [constructLL_eq n a fuel hn hn29 ha]
  cases h0 : construct fuel a n with
  | none => rfl
  | some t0 =>
    simp only [Option.some_bind]
    have v0 : Valid t0 a 1 1 n :=
      build_valid a fuel _ 1 1 n t0 (le_refl _) (by omega) (by omega) h0
    exact updatesLL_eq n fuel hn29 us t0 a hus v0 ha

/-- C9: 64-bit accumulation never overflows. For `1 <= n < 2^29`, an initial
array of 32-bit values and in-range updates with 32-bit values: `n * 2^31 < 2^63`;
the run with wrapping `long long` additions has exactly the outcome of the run
with exact integer additions; the run returns when `4 * n + 4` is representable
in `int` and faults otherwise (`n = 2^29 - 1`, where `main` gets no block and no
sum is formed); and in any tree the run returns, every node reached from the
root stores a sum of absolute value at most `n * 2^31`, and at every such node
every query (any `l`, `r`) returns, with wrapping additions, the exact result,
again of absolute value at most `n * 2^31`. -/
theorem ll_accumulation_exact (n : Nat) (a : Int → Int) (us : List (Int × Int)) (fuel : Nat)
    (hn : 1 ≤ n) (hn29 : n < 2 ^ 29) (ha : ∀ i : Int, 1 ≤ i → i ≤ n → inInt32 (a i))
    (hus : ∀ u ∈ us, (1 ≤ u.1 ∧ u.1 ≤ n) ∧ inInt32 u.2) (hfuel : n ≤ fuel) :
    (n : Int) * 2 ^ 31 < 2 ^ 63 ∧
    ((constructLL fuel a n).bind fun t0 => updatesLL fuel n t0 us) =
      ((construct fuel a n).bind fun t0 => updates fuel n t0 us) ∧
    (4 * n + 4 < 2 ^ 31 →
      ∃ t, ((constructLL fuel a n).bind fun t0 => updatesLL fuel n t0 us) = some t) ∧
    (¬ 4 * n + 4 < 2 ^ 31 →
      ((constructLL fuel a n).bind fun t0 => updatesLL fuel n t0 us) = none) ∧
    ∀ t, ((constructLL fuel a n).bind fun t0 => updatesLL fuel n t0 us) = some t →
      ∀ (k : Nat) (s e : Int), Covers 1 n k s e →
        (∃ x, t k = some x ∧ |x| ≤ (n : Int) * 2 ^ 31) ∧
        ∀ l r : Int, ∃ v, queryLL fuel t k s e l r = some v ∧
          query fuel t k s e l r = some v ∧ |v| ≤ (n : Int) * 2 ^ 31 := by
  have hus1 : ∀ u ∈ us, 1 ≤ u.1 ∧ u.1 ≤ (n : Int) := fun u hu => (hus u hu).1
  have heq := runLL_eq n a us fuel hn hn29 ha hus
  have hb := applyUpdates_int32 n us a ha fun u hu => (hus u hu).2
  refine ⟨by omega, heq, ?_, ?_, ?_⟩
  · intro hint
    obtain ⟨t, ht, _, _⟩ := run_valid n a us fuel hn hint hus1 hfuel
    exact ⟨t, by rw [heq]; exact ht⟩
  · intro hint
    rw [heq, construct_overflow fuel a n (by omega) (by omega)]
    rfl
  · intro t ht k s e hc
    rw [heq] at ht
    obtain ⟨t0, h0, h1⟩ := Option.bind_eq_some.1 ht
    have v0 : Valid t0 a 1 1 n :=
      build_valid a fuel _ 1 1 n t0 (le_refl _) (by omega) (by omega) h0
    have hv := updates_preserve n fuel us t0 a t hus1 v0 h1
    have hk := covers_valid hv hc
    have hr := covers_range (by omega) (by omega) hc
    have hbk : ∀ i, s ≤ i → i ≤ e → inInt32 (applyUpdates a us i) :=
      fun i h1 h2 => hb i (by omega) (by omega)
    constructor
    · refine ⟨_, valid_root hk, ?_⟩
      have := linearSum_bound (applyUpdates a us) n (le_refl s) (le_refl e) (by omega) hbk
      exact abs_le.2 this
    · intro l r
      refine ⟨_, ?_, query_valid fuel t _ k s e l r (by omega) (by omega) hk, ?_⟩
      · rw [queryLL_eq n hn29 fuel t _ k s e l r (by omega) (by omega) (by omega) hk hbk]
        exact query_valid fuel t _ k s e l r (by omega) (by omega) hk
      · have := linearSum_bound (applyUpdates a us) n (l := max l s) (r := min r e)
          (by omega) (by omega) (by omega) hbk
        exact abs_le.2 this

theorem scenarioArr_int32 (i : Int) (h1 : 1 ≤ i) (h2 : i ≤ ((6 : Nat) : Int)) :
    inInt32 (scenarioArr i) := by
  have h3 : i ≤ 6 := h2
  interval_cases i <;> exact ⟨by decide, by decide⟩

theorem ll_accumulation_exact_witness :
    (1 ≤ 6 ∧ 6 < 2 ^ 29 ∧
      (∀ u ∈ [((3 : Int), (10 : Int))], (1 ≤ u.1 ∧ u.1 ≤ ((6 : Nat) : Int)) ∧ inInt32 u.2) ∧
      6 ≤ 6) ∧
    (((6 : Nat) : Int) * 2 ^ 31 < 2 ^ 63 ∧
    ((constructLL 6 scenarioArr 6).bind fun t0 => updatesLL 6 6 t0 [(3, 10)]) =
      ((construct 6 scenarioArr 6).bind fun t0 => updates 6 6 t0 [(3, 10)]) ∧
    (4 * 6 + 4 < 2 ^ 31 →
      ∃ t, ((constructLL 6 scenarioArr 6).bind fun t0 => updatesLL 6 6 t0 [(3, 10)]) =
        some t) ∧
    (¬ 4 * 6 + 4 < 2 ^ 31 →
      ((constructLL 6 scenarioArr 6).bind fun t0 => updatesLL 6 6 t0 [(3, 10)]) = none) ∧
    ∀ t, ((constructLL 6 scenarioArr 6).bind fun t0 => updatesLL 6 6 t0 [(3, 10)]) = some t →
      ∀ (k : Nat) (s e : Int), Covers 1 ((6 : Nat) : Int) k s e →
        (∃ x, t k = some x ∧ |x| ≤ ((6 : Nat) : Int) * 2 ^ 31) ∧
        ∀ l r : Int, ∃ v, queryLL 6 t k s e l r = some v ∧
          query 6 t k s e l r = some v ∧ |v| ≤ ((6 : Nat) : Int) * 2 ^ 31) :=
  have hus : ∀ u ∈ [((3 : Int), (10 : Int))],
      (1 ≤ u.1 ∧ u.1 ≤ ((6 : Nat) : Int)) ∧ inInt32 u.2 := by
    intro u hu
    rw [List.mem_singleton] at hu
    subst hu
    exact ⟨by decide, by decide, by decide⟩
  ⟨⟨by decide, by decide, hus, by decide⟩,
    ll_accumulation_exact 6 scenarioArr [(3, 10)] 6 (by decide) (by decide)
      scenarioArr_int32 hus (by decide)⟩

end SegTree

/-! ## Theorems: KMP string matching -/

namespace KMP

theorem suf_zero {β : Type} (p t : Nat → β) (i : Nat) : Suf p t 0 i :=
  ⟨Nat.zero_le _, fun _ hx => absurd hx (Nat.not_lt_zero _)⟩

theorem suf_succ_iff {β : Type} (p t : Nat → β) (k i : Nat) :
    Suf p t (k + 1) (i + 1) ↔ Suf p t k i ∧ p k = t i := by
  constructor
  · rintro ⟨h1, h2⟩
    refine ⟨⟨by omega, fun x hx => ?_⟩, ?_⟩
    · have := h2 x (by omega)
      rw [this]; congr 1; omega
    · have := h2 k (by omega)
      rw [this]; congr 1; omega
  · rintro ⟨⟨h1, h2⟩, h3⟩
    refine ⟨by omega, fun x hx => ?_⟩
    by_cases hxk : x = k
    · subst hxk; rw [h3]; congr 1; omega
    · rw [h2 x (by omega)]; congr 1; omega

theorem suf_trans {β : Type} {p t : Nat → β} {j i k : Nat} (h1 : Suf p t j i)
    (h2 : Suf p p k j) : Suf p t k i := by
  refine ⟨le_trans h2.1 h1.1, fun x hx => ?_⟩
  rw [h2.2 x hx, h1.2 (j - k + x) (by have := h2.1; omega)]
  congr 1
  have := h2.1; have := h1.1; omega

theorem suf_border {β : Type} {p t : Nat → β} {j i k : Nat} (h1 : Suf p t j i)
    (h2 : Suf p t k i) (hkj : k ≤ j) : Suf p p k j := by
  refine ⟨hkj, fun x hx => ?_⟩
  rw [h2.2 x hx, h1.2 (j - k + x) (by omega)]
  congr 1
  have := h1.1; omega

theorem suf_le {β : Type} {p t : Nat → β} {k i : Nat} (h : Suf p t k i) : k ≤ i := h.1

/-! ### The lps buffer -/

theorem writeBuf_eq_some {b : Buf} {i v : Nat} {b1 : Buf} :
    writeBuf b i v = some b1 ↔ i < b.length ∧ b1 = b.set i (some v) := by
  unfold writeBuf
  split <;> simp [eq_comm, *]

theorem readBuf_set (b : Buf) (i v x : Nat) (hi : i < b.length) :
    readBuf (b.set i (some v)) x = if x = i then some v else readBuf b x := by
  unfold readBuf
  rw [List.getElem?_set]
  by_cases h : i = x
  · subst h; simp [hi]
  · have h2 : ¬ x = i := fun e => h e.symm
    simp [h, h2]

theorem acc_lt {α : Type} (l : List α) {x : Nat} (h : x < l.length) : ∃ a, l[x]? = some a :=
  ⟨l[x], List.getElem?_eq_getElem h⟩

theorem lpsStep_inv {α : Type} [DecidableEq α] (pattern : List α) (st : LpsState)
    (hinv : LpsInv pattern st) (hlt : st.i < pattern.length) :
    ∃ st1, lpsStep pattern st = some st1 ∧ LpsInv pattern st1 ∧
      2 * st.i - st.len < 2 * st1.i - st1.len := by
  obtain ⟨hi1, hi2, hlen, hsize, htab, hsuf, hdead⟩ := hinv
  obtain ⟨a, ha⟩ := acc_lt pattern hlt
  obtain ⟨b, hb⟩ := acc_lt pattern (show st.len < pattern.length by omega)
  have hpa : acc pattern st.i = some a := ha
  have hpb : acc pattern st.len = some b := hb
  unfold lpsStep
  rw [ha, hb]
  simp only []
  by_cases hab : a = b
  · -- the symbols agree: the border grows by one
    rw [if_pos hab]
    have hw : writeBuf st.lps st.i (st.len + 1) = some (st.lps.set st.i (some (st.len + 1))) :=
      writeBuf_eq_some.2 ⟨by omega, rfl⟩
    rw [hw]
    have hext : Suf (acc pattern) (acc pattern) (st.len + 1) (st.i + 1) :=
      (suf_succ_iff _ _ _ _).2 ⟨hsuf, by rw [hpa, hpb, hab]⟩
    have hmax : ∀ k, k ≤ st.i → Suf (acc pattern) (acc pattern) k (st.i + 1) →
        k ≤ st.len + 1 := by
      intro k hk hs
      cases k with
      | zero => omega
      | succ k =>
        obtain ⟨hs1, hs2⟩ := (suf_succ_iff _ _ _ _).1 hs
        by_contra hcon
        exact hdead k (by omega) (by omega) hs1 hs2
    refine ⟨_, rfl, ⟨by simp, by simp; omega, by simp; omega, by simp [hsize], ?_, hext, ?_⟩,
      by simp; omega⟩
    · intro x hx
      simp only at hx ⊢
      rw [readBuf_set _ _ _ _ (by omega)]
      by_cases hxi : x = st.i
      · subst hxi
        exact ⟨_, by simp, by omega, hext, hmax⟩
      · obtain ⟨v, hv1, hv2⟩ := htab x (by omega)
        exact ⟨v, by simp [hxi, hv1], hv2⟩
    · intro k hk1 hk2 hs
      simp only at hk1 hk2 hs
      have := hmax k (by omega) hs
      omega
  · rw [if_neg hab]
    by_cases hz : st.len = 0
    · -- no border can be extended: lps[i] = 0
      have hnz : ¬ st.len ≠ 0 := by simp [hz]
      rw [if_neg hnz]
      have hw : writeBuf st.lps st.i 0 = some (st.lps.set st.i (some 0)) :=
        writeBuf_eq_some.2 ⟨by omega, rfl⟩
      rw [hw]
      have hmax : ∀ k, k ≤ st.i → Suf (acc pattern) (acc pattern) k (st.i + 1) → k ≤ 0 := by
        intro k hk hs
        cases k with
        | zero => omega
        | succ k =>
          obtain ⟨hs1, hs2⟩ := (suf_succ_iff _ _ _ _).1 hs
          by_cases hk0 : k = st.len
          · subst hk0
            rw [hpa, hpb] at hs2
            exact absurd (Option.some.inj hs2).symm hab
          · exact absurd hs2 (hdead k (by omega) (by omega) hs1)
      refine ⟨_, rfl, ⟨by simp, by simp; omega, by simp; omega, by simp [hsize], ?_,
        by simp only [hz]; exact suf_zero _ _ _, ?_⟩, by simp; omega⟩
      · intro x hx
        simp only at hx ⊢
        rw [readBuf_set _ _ _ _ (by omega)]
        by_cases hxi : x = st.i
        · subst hxi
          exact ⟨0, by simp, by omega, suf_zero _ _ _, hmax⟩
        · obtain ⟨v, hv1, hv2⟩ := htab x (by omega)
          exact ⟨v, by simp [hxi, hv1], hv2⟩
      · intro k hk1 hk2 hs
        simp only at hk1 hk2 hs
        have := hmax k (by omega) hs
        omega
    · -- fall back to the border of the border
      have hnz : st.len ≠ 0 := hz
      rw [if_pos hnz]
      obtain ⟨v, hv1, hv2, hv3, hv4⟩ := htab (st.len - 1) (by omega)
      rw [hv1]
      have hl1 : st.len - 1 + 1 = st.len := by omega
      rw [hl1] at hv3 hv4
      refine ⟨_, rfl, ⟨hi1, hi2, by simp; omega, hsize, htab, suf_trans hsuf hv3, ?_⟩,
        by simp; omega⟩
      intro k hk1 hk2 hs
      simp only at hk1 hk2 hs ⊢
      rcases Nat.lt_trichotomy k st.len with h | h | h
      · have := hv4 k (by omega) (suf_border hsuf hs (by omega))
        omega
      · subst h
        rw [hpa, hpb]
        intro e
        exact hab (Option.some.inj e).symm
      · exact hdead k h hk2 hs


theorem lpsLoop_spec {α : Type} [DecidableEq α] (pattern : List α) : ∀ (fuel : Nat)
    (st : LpsState), LpsInv pattern st →
    2 * pattern.length - (2 * st.i - st.len) < fuel →
    ∃ lps, lpsLoop pattern pattern.length fuel st = some lps ∧
      LpsTable pattern lps pattern.length := by
  intro fuel
  induction fuel with
  | zero => intro st _ h; omega
  | succ f ih =>
    intro st hinv hfuel
    simp only [lpsLoop]
    by_cases hlt : st.i < pattern.length
    · rw [if_pos hlt]
      obtain ⟨st1, h1, hinv1, hm⟩ := lpsStep_inv pattern st hinv hlt
      have := hinv1.hi2
      have := hinv1.hlen
      obtain ⟨lps, h2, h3⟩ := ih st1 hinv1 (by omega)
      exact ⟨lps, by rw [h1]; exact h2, h3⟩
    · rw [if_neg hlt]
      have : st.i = pattern.length := by have := hinv.hi2; omega
      exact ⟨st.lps, rfl, by rw [← this]; exact hinv.htab⟩

theorem isLps_zero {β : Type} (p : Nat → β) : IsLps p 0 0 :=
  ⟨le_refl _, suf_zero _ _ _, fun _ hk _ => hk⟩

theorem lpsInv_init {α : Type} (pattern : List α) (lps : Buf)
    (hsize : lps.length = pattern.length) (hm : 1 ≤ pattern.length)
    (h0 : readBuf lps 0 = some 0) : LpsInv pattern { lps := lps, len := 0, i := 1 } := by
  refine ⟨le_refl _, hm, by simp, hsize, ?_, suf_zero _ _ _, ?_⟩
  · intro x hx
    have : x = 0 := by simpa using hx
    subst this
    exact ⟨0, h0, isLps_zero _⟩
  · intro k h1 h2 _
    simp only at h1 h2
    omega

theorem build_lps_spec {α : Type} [DecidableEq α] (pattern : List α) (fuel : Nat)
    (hm : 1 ≤ pattern.length) (hfuel : 2 * pattern.length ≤ fuel) :
    ∃ lps, build_lps fuel pattern pattern.length = some lps ∧
      LpsTable pattern lps pattern.length := by
  unfold build_lps
  have hw : writeBuf (List.replicate pattern.length none) 0 0 =
      some ((List.replicate pattern.length none).set 0 (some 0)) :=
    writeBuf_eq_some.2 ⟨by simpa using hm, rfl⟩
  rw [hw]
  simp only [Option.some_bind]
  refine lpsLoop_spec pattern fuel _ (lpsInv_init pattern _ (by simp) hm ?_) (by simp; omega)
  rw [readBuf_set _ _ _ _ (by simpa using hm)]
  simp

theorem compute_lps_spec {α : Type} [DecidableEq α] (pattern : List α) (fuel : Nat)
    (hm : 1 ≤ pattern.length) (hfuel : 2 * pattern.length ≤ fuel) :
    ∃ lps, compute_lps fuel pattern = some lps ∧ LpsTable pattern lps pattern.length := by
  unfold compute_lps
  refine lpsLoop_spec pattern fuel _ (lpsInv_init pattern _ (by simp) hm ?_) (by simp; omega)
  have h0 : 0 < pattern.length := hm
  simp [readBuf, List.getElem?_replicate, h0]

/-! ### Occurrences -/

end KMP

/-! ## Theorems: segment tree, frame of a point update -/

namespace SegTree

theorem query_frame : ∀ (fuel : Nat) (t u : Tree) (k : Nat) (s e l r : Int),
    (∀ j, InSub k j → u j = t j) → query fuel u k s e l r = query fuel t k s e l r := by
  intro fuel
  induction fuel with
  | zero => intro t u k s e l r _; rfl
  | succ f ih =>
    intro t u k s e l r h
    simp only [query, readT]
    rw [h k (inSub_self _), ih t u (2 * k) _ _ l r fun j hj => h j (inSub_left hj),
      ih t u (2 * k + 1) _ _ l r fun j hj => h j (inSub_right hj)]

theorem update_point_query : ∀ (fuel : Nat) (t : Tree) (k : Nat) (s e idx v : Int)
    (t1 : Tree) (j : Int) (f2 : Nat), 1 ≤ k → 0 ≤ s → s ≤ idx → idx ≤ e → j ≠ idx →
    update fuel t k s e idx v = some t1 →
    query f2 t1 k s e j j = query f2 t k s e j j := by
  intro fuel
  induction fuel with
  | zero => intro t k s e idx v t1 j f2 _ _ _ _ _ h; simp [update] at h
  | succ f ih =>
    intro t k s e idx v t1 j f2 hk hs hi1 hi2 hj h
    cases f2 with
    | zero => rfl
    | succ g =>
      simp only [query]
      by_cases hd : j < s ∨ e < j
      · rw [if_pos hd, if_pos hd]
      · rw [if_neg hd, if_neg hd]
        have hc : ¬ (j ≤ s ∧ e ≤ j) := by omega
        rw [if_neg hc, if_neg hc]
        have hne : s ≠ e := by omega
        have hlt : s < e := by omega
        have hm := mid_ge hs hlt
        have hl := mid_lt hs hlt
        simp only [update, if_neg hne, Option.bind_eq_some, readT] at h
        obtain ⟨ta, h1, x, _, y, _, hw⟩ := h
        obtain ⟨_, rfl⟩ := writeT_eq_some.1 hw
        have eL : query g (setSlot ta k (x + y)) (2 * k) s ((s + e).tdiv 2) j j =
            query g ta (2 * k) s ((s + e).tdiv 2) j j :=
          query_frame g ta _ _ _ _ j j fun i hi => setSlot_other _ _ (by
            rintro rfl; exact not_inSub_left_self hk hi)
        have eR : query g (setSlot ta k (x + y)) (2 * k + 1) ((s + e).tdiv 2 + 1) e j j =
            query g ta (2 * k + 1) ((s + e).tdiv 2 + 1) e j j :=
          query_frame g ta _ _ _ _ j j fun i hi => setSlot_other _ _ (by
            rintro rfl; exact not_inSub_right_self hi)
        rw [eL, eR]
        split at h1
        · next hle =>
          have f1 := (update_frame _ _ _ _ _ _ _ _ h1).1
          rw [ih t (2 * k) s _ idx v ta j g (by omega) hs hi1 hle hj h1,
            query_frame g t ta (2 * k + 1) _ _ j j fun i hi => f1 i fun hh =>
              inSub_disjoint hk hh hi]
        · next hgt =>
          have f1 := (update_frame _ _ _ _ _ _ _ _ h1).1
          rw [ih t (2 * k + 1) _ e idx v ta j g (by omega) (by omega) (by omega) hi2 hj h1,
            query_frame g t ta (2 * k) _ _ j j fun i hi => f1 i fun hh =>
              inSub_disjoint hk hi hh]

theorem update_path (n : Int) : ∀ (fuel : Nat) (t : Tree) (k : Nat) (s e idx v : Int)
    (t1 : Tree), Covers 1 n k s e → 1 ≤ n → s ≤ idx → idx ≤ e →
    update fuel t k s e idx v = some t1 →
    ∀ slot, t1 slot ≠ t slot → ∃ s1 e1, Covers 1 n slot s1 e1 ∧ s1 ≤ idx ∧ idx ≤ e1 := by
  intro fuel
  induction fuel with
  | zero => intro t k s e idx v t1 _ _ _ _ h; simp [update] at h
  | succ f ih =>
    intro t k s e idx v t1 hc hn hi1 hi2 h slot hslot
    have hr := covers_range (by omega) hn hc
    simp only [update] at h
    split at h
    · obtain ⟨_, rfl⟩ := writeT_eq_some.1 h
      by_cases hsk : slot = k
      · subst hsk; exact ⟨s, e, hc, hi1, hi2⟩
      · exact absurd (setSlot_other _ _ hsk) hslot
    · next hne =>
      have hlt : s < e := by omega
      have hm := mid_ge (by omega) hlt
      have hl := mid_lt (by omega) hlt
      simp only [Option.bind_eq_some, readT] at h
      obtain ⟨ta, h1, x, _, y, _, hw⟩ := h
      obtain ⟨_, rfl⟩ := writeT_eq_some.1 hw
      by_cases hsk : slot = k
      · subst hsk; exact ⟨s, e, hc, hi1, hi2⟩
      · rw [setSlot_other _ _ hsk] at hslot
        split at h1
        · next hle => exact ih t _ _ _ idx v ta (Covers.left hc hlt) hn hi1 hle h1 slot hslot
        · next hgt =>
          exact ih t _ _ _ idx v ta (Covers.right hc hlt) hn (by omega) hi2 h1 slot hslot

/-- C14: a point update touches exactly one position. For `n >= 1`, any tree
array with slots `1 .. 4n - 1` allocated and `1 <= idx <= n`,
`update(1, 1, n, idx, val)` returns; every slot whose content differs afterwards
is the slot of a node reached from the root whose range contains `idx`; and for
every position `j != idx` in `[1, n]`, `query(1, 1, n, j, j)` gives the same
result before and after. -/
theorem update_touches_one_position (n : Nat) (t : Tree) (idx val : Int) (fuel : Nat)
    (hn : 1 ≤ n) (h1 : 1 ≤ idx) (h2 : idx ≤ n) (ha : Alloc n t) (hfuel : n ≤ fuel) :
    ∃ t1, update fuel t 1 1 n idx val = some t1 ∧
      (∀ slot, t1 slot ≠ t slot →
        ∃ s e, Covers 1 n slot s e ∧ s ≤ idx ∧ idx ≤ e) ∧
      ∀ j : Int, 1 ≤ j → j ≤ n → j ≠ idx →
        query fuel t1 1 1 n j j = query fuel t 1 1 n j j := by
  obtain ⟨t1, ht1⟩ := update_succeeds n fuel t 1 1 1 n idx val (fits_root hn) ha (by omega)
  refine ⟨t1, ht1, ?_, ?_⟩
  · exact update_path n fuel t 1 1 n idx val t1 Covers.root (by omega) h1 h2 ht1
  · intro j _ _ hj
    exact update_point_query fuel t 1 1 n idx val t1 j fuel (le_refl _) (by omega) h1 h2 hj ht1

theorem update_touches_one_position_witness :
    (1 ≤ 6 ∧ (1 : Int) ≤ 3 ∧ (3 : Int) ≤ ((6 : Nat) : Int) ∧ Alloc 6 (calloc 28) ∧ 6 ≤ 6) ∧
    ∃ t1, update 6 (calloc 28) 1 1 ((6 : Nat) : Int) 3 10 = some t1 ∧
      (∀ slot, t1 slot ≠ calloc 28 slot →
        ∃ s e, Covers 1 ((6 : Nat) : Int) slot s e ∧ s ≤ 3 ∧ 3 ≤ e) ∧
      ∀ j : Int, 1 ≤ j → j ≤ ((6 : Nat) : Int) → j ≠ 3 →
        query 6 t1 1 1 ((6 : Nat) : Int) j j = query 6 (calloc 28) 1 1 ((6 : Nat) : Int) j j :=
  ⟨⟨by decide, by decide, by decide, alloc_calloc 6 28 (by decide), by decide⟩,
    update_touches_one_position 6 (calloc 28) 3 10 6 (by decide) (by decide) (by decide)
      (alloc_calloc 6 28 (by decide)) (by decide)⟩

end SegTree

/-! ## Theorems: KMP, the lps table -/

namespace KMP

theorem border_iff {α : Type} (pattern : List α) (k i : Nat) (hk : k ≤ i + 1) :
    (pattern.drop (i + 1 - k)).take k = pattern.take k ↔
      Suf (acc pattern) (acc pattern) k (i + 1) := by
  constructor
  · intro h
    refine ⟨hk, fun x hx => ?_⟩
    show pattern[x]? = pattern[i + 1 - k + x]?
    have e1 : (pattern.take k)[x]? = pattern[x]? := by
      rw [List.getElem?_take, if_pos hx]
    have e2 : ((pattern.drop (i + 1 - k)).take k)[x]? = pattern[i + 1 - k + x]? := by
      rw [List.getElem?_take, if_pos hx, List.getElem?_drop]
    rw [← e1, ← e2, h]
  · rintro ⟨_, h⟩
    apply List.ext_getElem?
    intro x
    rw [List.getElem?_take, List.getElem?_take]
    by_cases hx : x < k
    · rw [if_pos hx, if_pos hx, List.getElem?_drop]
      exact (h x hx).symm
    · rw [if_neg hx, if_neg hx]

theorem isLps_unique {β : Type} {p : Nat → β} {i v w : Nat} (h1 : IsLps p i v)
    (h2 : IsLps p i w) : v = w :=
  le_antisymm (h2.2.2 v h1.1 h1.2.1) (h1.2.2 w h2.1 h2.2.1)

/-- C15: LPS table correctness. For a pattern of length `m >= 1`, `build_lps`
and `compute_lps` return (fuel `2m` suffices) and entry `i < m` of either table
is the largest `k <= i` with `P[0..k) = P[i-k+1..i]`, the length of the longest
proper prefix of `P[0..i]` that is also a suffix of it. -/
theorem lps_table_correct {α : Type} [DecidableEq α] (pattern : List α) (fuel : Nat)
    (hm : 1 ≤ pattern.length) (hfuel : 2 * pattern.length ≤ fuel) :
    ∃ lps lps2, build_lps fuel pattern pattern.length = some lps ∧
      compute_lps fuel pattern = some lps2 ∧
      ∀ i, i < pattern.length → ∃ v, readBuf lps i = some v ∧ readBuf lps2 i = some v ∧
        v ≤ i ∧ (pattern.drop (i + 1 - v)).take v = pattern.take v ∧
        ∀ k, k ≤ i → (pattern.drop (i + 1 - k)).take k = pattern.take k → k ≤ v := by
  obtain ⟨lps, h1, t1⟩ := build_lps_spec pattern fuel hm hfuel
  obtain ⟨lps2, h2, t2⟩ := compute_lps_spec pattern fuel hm hfuel
  refine ⟨lps, lps2, h1, h2, ?_⟩
  intro i hi
  obtain ⟨v, hv, hlps⟩ := t1 i hi
  obtain ⟨w, hw, hlps2⟩ := t2 i hi
  have hvw := isLps_unique hlps hlps2
  subst hvw
  refine ⟨v, hv, hw, hlps.1, (border_iff pattern v i (by have := hlps.1; omega)).2 hlps.2.1, ?_⟩
  intro k hk hb
  exact hlps.2.2 k hk ((border_iff pattern k i (by omega)).1 hb)

theorem lps_table_correct_witness :
    (1 ≤ ([1, 1, 2, 1, 1, 1, 2] : List Nat).length ∧
      2 * ([1, 1, 2, 1, 1, 1, 2] : List Nat).length ≤ 14) ∧
    ∃ lps lps2, build_lps 14 ([1, 1, 2, 1, 1, 1, 2] : List Nat)
        ([1, 1, 2, 1, 1, 1, 2] : List Nat).length = some lps ∧
      compute_lps 14 ([1, 1, 2, 1, 1, 1, 2] : List Nat) = some lps2 ∧
      ∀ i, i < ([1, 1, 2, 1, 1, 1, 2] : List Nat).length →
        ∃ v, readBuf lps i = some v ∧ readBuf lps2 i = some v ∧
        v ≤ i ∧ (([1, 1, 2, 1, 1, 1, 2] : List Nat).drop (i + 1 - v)).take v =
          ([1, 1, 2, 1, 1, 1, 2] : List Nat).take v ∧
        ∀ k, k ≤ i → (([1, 1, 2, 1, 1, 1, 2] : List Nat).drop (i + 1 - k)).take k =
          ([1, 1, 2, 1, 1, 1, 2] : List Nat).take k → k ≤ v :=
  ⟨by decide, lps_table_correct ([1, 1, 2, 1, 1, 1, 2] : List Nat) 14 (by decide) (by decide)⟩

end KMP

/-! ## Theorems: longest increasing subsequence -/

namespace LIS

theorem writeI_eq_some {b : IntBuf} {i : Nat} {v : Int} {b1 : IntBuf} :
    writeI b i v = some b1 ↔ i < b.length ∧ b1 = b.set i (some v) := by
  unfold writeI
  split <;> simp [eq_comm, *]

theorem readI_set (b : IntBuf) (i : Nat) (v : Int) (x : Nat) (hi : i < b.length) :
    readI (b.set i (some v)) x = if x = i then some v else readI b x := by
  unfold readI
  rw [List.getElem?_set]
  by_cases h : i = x
  · subst h; simp [hi]
  · have h2 : ¬ x = i := fun e => h e.symm
    simp [h, h2]

theorem cell_set (b : IntBuf) (i : Nat) (v : Int) (x : Nat) (hi : i < b.length) :
    cell (b.set i (some v)) x = if x = i then v else cell b x := by
  unfold cell
  rw [readI_set b i v x hi]
  split <;> rfl

theorem lowerLoop_spec (tails : IntBuf) (len : Nat) (val : Int) (f : Nat → Int)
    (hfill : ∀ k, k < len → readI tails k = some (f k))
    (hsorted : ∀ j k, j ≤ k → k < len → f j ≤ f k) :
    ∀ (fuel lo hi : Nat), lo ≤ hi → hi ≤ len → hi - lo < fuel →
    (∀ k, k < lo → f k < val) → (∀ k, hi ≤ k → k < len → val ≤ f k) →
    ∃ pos, lowerLoop tails val fuel lo hi = some pos ∧ pos ≤ len ∧
      (∀ k, k < pos → f k < val) ∧ (∀ k, pos ≤ k → k < len → val ≤ f k) := by
  intro fuel
  induction fuel with
  | zero => intro lo hi _ _ h; omega
  | succ g ih =>
    intro lo hi hlh hhl hfuel hlow hhigh
    simp only [lowerLoop]
    by_cases hlt : lo < hi
    · rw [if_pos hlt]
      have hmid1 : lo ≤ lo + (hi - lo) / 2 := by omega
      have hmid2 : lo + (hi - lo) / 2 < hi := by omega
      rw [hfill _ (by omega)]
      simp only [Option.some_bind]
      by_cases hx : f (lo + (hi - lo) / 2) < val
      · rw [if_pos hx]
        refine ih _ _ (by omega) hhl (by omega) ?_ hhigh
        intro k hk
        exact lt_of_le_of_lt (hsorted k _ (by omega) (by omega)) hx
      · rw [if_neg hx]
        refine ih _ _ (by omega) (by omega) (by omega) hlow ?_
        intro k hk1 hk2
        exact le_trans (not_lt.1 hx) (hsorted _ k hk1 hk2)
    · rw [if_neg hlt]
      have : lo = hi := by omega
      subst this
      exact ⟨lo, rfl, hhl, hlow, hhigh⟩

theorem lower_bound_unique (len : Nat) (val : Int) (f : Nat → Int) (p q : Nat)
    (hp : p ≤ len) (hq : q ≤ len) (hp1 : ∀ k, k < p → f k < val)
    (hp2 : ∀ k, p ≤ k → k < len → val ≤ f k) (hq1 : ∀ k, k < q → f k < val)
    (hq2 : ∀ k, q ≤ k → k < len → val ≤ f k) : q = p := by
  rcases Nat.lt_trichotomy q p with h | h | h
  · have h1 := hp1 q h
    have h2 := hq2 q (le_refl _) (by omega)
    omega
  · exact h
  · have h1 := hq1 p h
    have h2 := hp2 p (le_refl _) (by omega)
    omega

theorem lower_bound_spec (tails : IntBuf) (len : Nat) (val : Int) (f : Nat → Int)
    (fuel : Nat) (hfill : ∀ k, k < len → readI tails k = some (f k))
    (hsorted : ∀ j k, j ≤ k → k < len → f j ≤ f k) (hfuel : len < fuel) :
    ∃ pos, lower_bound fuel tails len val = some pos ∧ pos ≤ len ∧
      (∀ k, k < pos → f k < val) ∧ (∀ k, pos ≤ k → k < len → val ≤ f k) :=
  lowerLoop_spec tails len val f hfill hsorted fuel 0 len (Nat.zero_le _) (le_refl _)
    (by omega) (fun k hk => absurd hk (Nat.not_lt_zero _)) (fun k h1 h2 => by omega)

/-- C16: `lower_bound` returns the leftmost position. For `len >= 0`, an array
whose cells `0 .. len - 1` hold the non-decreasing values `f 0, ..., f (len - 1)`,
and any `val`, the call returns (fuel `len + 1` suffices) a position `pos <= len`
with `tails[k] < val` for `k < pos` and `tails[k] >= val` for `pos <= k < len`,
and it is the only such position. -/
theorem lower_bound_leftmost (tails : IntBuf) (len : Nat) (val : Int) (f : Nat → Int)
    (fuel : Nat) (hfill : ∀ k, k < len → readI tails k = some (f k))
    (hsorted : ∀ j k, j ≤ k → k < len → f j ≤ f k) (hfuel : len < fuel) :
    ∃ pos, lower_bound fuel tails len val = some pos ∧ pos ≤ len ∧
      (∀ k, k < pos → f k < val) ∧ (∀ k, pos ≤ k → k < len → val ≤ f k) ∧
      ∀ q, q ≤ len → (∀ k, k < q → f k < val) → (∀ k, q ≤ k → k < len → val ≤ f k) →
        q = pos := by
  obtain ⟨pos, h1, h2, h3, h4⟩ := lower_bound_spec tails len val f fuel hfill hsorted hfuel
  exact ⟨pos, h1, h2, h3, h4, fun q hq hq1 hq2 =>
    lower_bound_unique len val f pos q h2 hq h3 h4 hq1 hq2⟩


theorem lisInv_init (n : Nat) :
    LisInv n [] { tails := List.replicate n none, lis_len := 0 } := by
  refine ⟨by simp, le_refl _, ?_, ?_, ?_, ?_⟩
  · intro k hk; exact absurd hk (Nat.not_lt_zero _)
  · intro j k _ hk; exact absurd hk (Nat.not_lt_zero _)
  · intro k hk; exact absurd hk (Nat.not_lt_zero _)
  · intro s0 x hs _
    have := List.sublist_nil.1 hs
    simp at this

theorem mem_lt_of_pairwise_concat {s0 : List Int} {c x : Int}
    (hp : (s0 ++ [c]).Pairwise (· < ·)) (hc : c < x) : ∀ a ∈ s0 ++ [c], a < x := by
  intro a ha
  rw [List.pairwise_append] at hp
  rcases List.mem_append.1 ha with h | h
  · exact lt_trans (hp.2.2 a h c (List.mem_singleton_self c)) hc
  · rw [List.mem_singleton] at h; rw [h]; exact hc

theorem lisStep_inv (n : Nat) (pre : List Int) (st : LisState) (x : Int) (fuel : Nat)
    (hinv : LisInv n pre st) (hpre : pre.length < n) (hfuel : n < fuel) :
    ∃ st1, lisStep fuel x st = some st1 ∧ LisInv n (pre ++ [x]) st1 := by
  obtain ⟨hsize, hlen, hfill, hmono, hwit, hmin⟩ := hinv
  have hsorted : ∀ j k, j ≤ k → k < st.lis_len → cell st.tails j ≤ cell st.tails k := by
    intro j k hjk hk
    rcases Nat.eq_or_lt_of_le hjk with h | h
    · rw [h]
    · exact le_of_lt (hmono j k h hk)
  obtain ⟨pos, hlb, hpl, hlow, hhigh⟩ :=
    lower_bound_spec st.tails st.lis_len x (cell st.tails) fuel hfill hsorted (by omega)
  have hposn : pos < st.tails.length := by omega
  unfold lisStep
  rw [hlb]
  simp only [Option.some_bind]
  rw [writeI_eq_some.2 ⟨hposn, rfl⟩]
  simp only [Option.some_bind]
  refine ⟨_, rfl, ?_⟩
  have hL : ∀ k, k < (if pos = st.lis_len then st.lis_len + 1 else st.lis_len) →
      k ≠ pos → k < st.lis_len := by
    intro k hk hne
    split at hk <;> omega
  have hposL : pos < (if pos = st.lis_len then st.lis_len + 1 else st.lis_len) := by
    split <;> omega
  have hLle : st.lis_len ≤ (if pos = st.lis_len then st.lis_len + 1 else st.lis_len) := by
    split <;> omega
  refine ⟨by simp [hsize], ?_, ?_, ?_, ?_, ?_⟩
  · simp only [List.length_append, List.length_singleton]
    split <;> omega
  · intro k hk
    simp only at hk ⊢
    rw [readI_set _ _ _ _ hposn, cell_set _ _ _ _ hposn]
    by_cases hkp : k = pos
    · simp [hkp]
    · simp only [hkp, if_false]; exact hfill k (hL k hk hkp)
  · intro j k hjk hk
    simp only at hk ⊢
    rw [cell_set _ _ _ _ hposn, cell_set _ _ _ _ hposn]
    by_cases hjp : j = pos
    · have hkp : k ≠ pos := by omega
      have hkL := hL k hk hkp
      simp only [hjp, hkp, if_true, if_false]
      exact lt_of_le_of_lt (hhigh pos (le_refl _) (by omega)) (hmono pos k (by omega) hkL)
    · by_cases hkp : k = pos
      · simp only [hjp, hkp, if_true, if_false]
        exact hlow j (by omega)
      · simp only [hjp, hkp, if_false]
        exact hmono j k hjk (hL k hk hkp)
  · intro k hk
    simp only at hk ⊢
    rw [cell_set _ _ _ _ hposn]
    by_cases hkp : k = pos
    · simp only [hkp, if_true]
      by_cases hp0 : pos = 0
      · exact ⟨[], by simp, by simp, by simp [hp0]⟩
      · obtain ⟨s1, hs1, hp1, hl1⟩ := hwit (pos - 1) (by omega)
        refine ⟨s1 ++ [cell st.tails (pos - 1)], List.Sublist.append hs1 (List.Sublist.refl _),
          ?_, by simp [hl1]; omega⟩
        rw [List.pairwise_append]
        refine ⟨hp1, List.pairwise_singleton _ _, ?_⟩
        intro a ha b hb
        rw [List.mem_singleton] at hb
        rw [hb]
        exact mem_lt_of_pairwise_concat hp1 (hlow (pos - 1) (by omega)) a ha
    · simp only [hkp, if_false]
      obtain ⟨s1, hs1, hp1, hl1⟩ := hwit k (hL k hk hkp)
      exact ⟨s1, hs1.trans (List.sublist_append_left _ _), hp1, hl1⟩
  · intro s0 y hs hp
    simp only
    rw [cell_set _ _ _ _ hposn]
    obtain ⟨l1, l2, heq, h1, h2⟩ := List.sublist_append_iff.1 hs
    have hl2 : l2 = [] ∨ l2 = [x] := by
      cases h2 with
      | cons _ h => left; exact List.sublist_nil.1 h
      | cons₂ _ h => right; rw [List.sublist_nil.1 h]
    rcases hl2 with hl2 | hl2
    · subst hl2
      rw [List.append_nil] at heq
      rw [← heq] at h1
      obtain ⟨m1, m2⟩ := hmin s0 y h1 hp
      refine ⟨by omega, ?_⟩
      by_cases hsp : s0.length = pos
      · simp only [hsp, if_true]
        rw [hsp] at m2 m1
        exact le_trans (hhigh pos (le_refl _) m1) m2
      · simp only [hsp, if_false]; exact m2
    · subst hl2
      obtain ⟨e1, e2⟩ := List.append_inj' heq rfl
      have hyx : y = x := by simpa using e2
      subst hyx
      subst e1
      have hlen0 : s0.length ≤ pos := by
        rcases List.eq_nil_or_concat s0 with h0 | ⟨s1, z, h0⟩
        · rw [h0]; exact Nat.zero_le _
        · rw [List.concat_eq_append] at h0
          subst h0
          have hp' := hp
          rw [List.pairwise_append] at hp'
          have hzy : z < y := hp'.2.2 z (by simp) y (List.mem_singleton_self y)
          obtain ⟨m1, m2⟩ := hmin s1 z h1 hp'.1
          have : s1.length < pos := by
            by_contra hcon
            have := hhigh s1.length (by omega) m1
            omega
          simp only [List.length_append, List.length_singleton]
          omega
      refine ⟨by omega, ?_⟩
      by_cases hsp : s0.length = pos
      · simp only [hsp, if_true]; exact le_refl _
      · simp only [hsp, if_false]
        exact le_of_lt (hlow s0.length (by omega))

theorem lisFor_spec (fuel : Nat) (arr : List Int) (hfuel : arr.length < fuel) :
    ∀ (rem i : Nat) (st : LisState), i + rem = arr.length →
    LisInv arr.length (arr.take i) st →
    ∃ st1, lisFor fuel arr rem i st = some st1 ∧ LisInv arr.length arr st1 := by
  intro rem
  induction rem with
  | zero =>
    intro i st hi hinv
    have : i = arr.length := by omega
    subst this
    rw [List.take_length] at hinv
    exact ⟨st, rfl, hinv⟩
  | succ r ih =>
    intro i st hi hinv
    have hlt : i < arr.length := by omega
    simp only [lisFor]
    rw [List.getElem?_eq_getElem hlt]
    simp only [Option.some_bind]
    obtain ⟨st1, h1, hinv1⟩ := lisStep_inv arr.length (arr.take i) st arr[i] fuel hinv
      (by rw [List.length_take]; omega) hfuel
    rw [h1]
    simp only [Option.some_bind]
    refine ih (i + 1) st1 (by omega) ?_
    have e : arr.take (i + 1) = arr.take i ++ [arr[i]] := by
      rw [List.take_succ, List.getElem?_eq_getElem hlt]; rfl
    rw [e]; exact hinv1

theorem lisInv_max {n : Nat} {arr : List Int} {st : LisState} (hinv : LisInv n arr st) :
    (∃ s : List Int, List.Sublist s arr ∧ s.Pairwise (· < ·) ∧ s.length = st.lis_len) ∧
    ∀ s : List Int, List.Sublist s arr → s.Pairwise (· < ·) → s.length ≤ st.lis_len := by
  constructor
  · by_cases h0 : st.lis_len = 0
    · exact ⟨[], List.nil_sublist _, List.Pairwise.nil, by simp [h0]⟩
    · obtain ⟨s0, h1, h2, h3⟩ := hinv.hwit (st.lis_len - 1) (by omega)
      exact ⟨_, h1, h2, by simp [h3]; omega⟩
  · intro s hs hp
    rcases List.eq_nil_or_concat s with h0 | ⟨s1, z, h0⟩
    · rw [h0]; exact Nat.zero_le _
    · rw [List.concat_eq_append] at h0
      subst h0
      have := (hinv.hmin s1 z hs hp).1
      simp only [List.length_append, List.length_singleton]
      omega

/-- C11: LIS length. On the count `n` and the `n` values read (none when
`n <= 0`), `main` returns (fuel `n + 1` suffices) and the printed `lis_len` is
the length of some strictly increasing subsequence of `arr` and an upper bound
for the length of every strictly increasing subsequence; for `n <= 0` it is 0. -/
theorem lis_length_correct (n : Int) (arr : List Int) (fuel : Nat)
    (harr : arr.length = n.toNat) (hfuel : arr.length < fuel) :
    ∃ L, lisMain fuel n arr = some L ∧
      (∃ s : List Int, List.Sublist s arr ∧ s.Pairwise (· < ·) ∧ s.length = L) ∧
      (∀ s : List Int, List.Sublist s arr → s.Pairwise (· < ·) → s.length ≤ L) ∧
      (n ≤ 0 → L = 0) := by
  unfold lisMain
  by_cases hn : n ≤ 0
  · rw [if_pos hn]
    have h0 : arr = [] := by
      apply List.eq_nil_of_length_eq_zero
      omega
    subst h0
    refine ⟨0, rfl, ⟨[], List.Sublist.refl _, List.Pairwise.nil, rfl⟩, ?_, fun _ => rfl⟩
    intro s hs _
    rw [List.sublist_nil.1 hs]; exact le_refl _
  · rw [if_neg hn]
    obtain ⟨st1, h1, hinv⟩ := lisFor_spec fuel arr hfuel arr.length 0
      { tails := List.replicate arr.length none, lis_len := 0 } (by omega)
      (by rw [List.take_zero]; exact lisInv_init _)
    rw [← harr, h1]
    obtain ⟨m1, m2⟩ := lisInv_max hinv
    exact ⟨st1.lis_len, rfl, m1, m2, fun h => absurd h hn⟩

theorem lis_length_correct_witness :
    (([10, 9, 2, 5, 3, 7, 101, 18] : List Int).length = (8 : Int).toNat ∧
      ([10, 9, 2, 5, 3, 7, 101, 18] : List Int).length < 9) ∧
    ∃ L, lisMain 9 8 [10, 9, 2, 5, 3, 7, 101, 18] = some L ∧
      (∃ s : List Int, List.Sublist s [10, 9, 2, 5, 3, 7, 101, 18] ∧ s.Pairwise (· < ·) ∧
        s.length = L) ∧
      (∀ s : List Int, List.Sublist s [10, 9, 2, 5, 3, 7, 101, 18] → s.Pairwise (· < ·) →
        s.length ≤ L) ∧
      ((8 : Int) ≤ 0 → L = 0) :=
  ⟨by decide, lis_length_correct 8 [10, 9, 2, 5, 3, 7, 101, 18] 9 (by decide) (by decide)⟩

theorem lower_bound_leftmost_witness :
    ((∀ k, k < 3 → readI [some 2, some 5, some 5, none] k =
        some ((fun k => ([2, 5, 5] : List Int).getD k 0) k)) ∧
      (∀ j k, j ≤ k → k < 3 →
        (fun k => ([2, 5, 5] : List Int).getD k 0) j ≤
          (fun k => ([2, 5, 5] : List Int).getD k 0) k) ∧ 3 < 4) ∧
    ∃ pos, lower_bound 4 [some 2, some 5, some 5, none] 3 5 = some pos ∧ pos ≤ 3 ∧
      (∀ k, k < pos → (fun k => ([2, 5, 5] : List Int).getD k 0) k < 5) ∧
      (∀ k, pos ≤ k → k < 3 → 5 ≤ (fun k => ([2, 5, 5] : List Int).getD k 0) k) ∧
      ∀ q, q ≤ 3 → (∀ k, k < q → (fun k => ([2, 5, 5] : List Int).getD k 0) k < 5) →
        (∀ k, q ≤ k → k < 3 → 5 ≤ (fun k => ([2, 5, 5] : List Int).getD k 0) k) →
        q = pos :=
  have h1 : ∀ k, k < 3 → readI [some 2, some 5, some 5, none] k =
      some ((fun k => ([2, 5, 5] : List Int).getD k 0) k) := by decide
  have h2 : ∀ j k, j ≤ k → k < 3 →
      (fun k => ([2, 5, 5] : List Int).getD k 0) j ≤
        (fun k => ([2, 5, 5] : List Int).getD k 0) k := by
    intro j k hjk hk
    interval_cases k <;> interval_cases j <;> decide
  ⟨⟨h1, h2, by decide⟩,
    lower_bound_leftmost [some 2, some 5, some 5, none] 3 5
      (fun k => ([2, 5, 5] : List Int).getD k 0) 4 h1 h2 (by decide)⟩

end LIS

/-! ## Theorems: matrix exponentiation -/

namespace MatExp

theorem remLL_small {x : Int} (h0 : 0 ≤ x) (h1 : x < 1000000007) : remLL x MOD = x := by
  unfold remLL MOD
  rw [Int.tmod_eq_emod h0 (by decide)]
  exact Int.emod_eq_of_lt h0 h1

theorem accum_step (c x y : Nat) (hc : c < 1000000007) (hx : x < 1000000007)
    (hy : y < 1000000007) :
    remLL (addLL (c : Int) (mulLL (x : Int) (y : Int))) MOD =
      (((c + x * y) % 1000000007 : Nat) : Int) := by
  have hxy : x * y ≤ 1000000006 * 1000000006 :=
    Nat.mul_le_mul (by omega) (by omega)
  have hxyi : ((x * y : Nat) : Int) ≤ 1000000006 * 1000000006 := by exact_mod_cast hxy
  have hpos : (0 : Int) ≤ ((x * y : Nat) : Int) := Int.natCast_nonneg _
  have hci : ((c : Nat) : Int) < 1000000007 := by exact_mod_cast hc
  have hc0 : (0 : Int) ≤ (c : Int) := Int.natCast_nonneg _
  have e1 : (x : Int) * (y : Int) = ((x * y : Nat) : Int) := by push_cast; rfl
  unfold mulLL addLL
  rw [e1, SegTree.wrap64_eq (x := ((x * y : Nat) : Int)) (by omega) (by omega),
    SegTree.wrap64_eq (by omega) (by omega)]
  unfold remLL MOD
  rw [Int.tmod_eq_emod (by omega) (by decide)]
  push_cast
  rfl

theorem mod_lt_mod (x : Nat) : x % 1000000007 < 1000000007 := Nat.mod_lt _ (by decide)

theorem two_products_mod (X Y Z W : Nat) :
    ((0 + X % 1000000007 * (Y % 1000000007)) % 1000000007 +
        Z % 1000000007 * (W % 1000000007)) % 1000000007 =
      (X * Y + Z * W) % 1000000007 := by
  rw [Nat.zero_add, Nat.add_mod, Nat.mod_mod, ← Nat.mul_mod, ← Nat.mul_mod, ← Nat.add_mod]

theorem cellMul_mod (X Z Y W : Nat) :
    cellMul ((X % 1000000007 : Nat) : Int) ((Z % 1000000007 : Nat) : Int)
        ((Y % 1000000007 : Nat) : Int) ((W % 1000000007 : Nat) : Int) =
      (((X * Y + Z * W) % 1000000007 : Nat) : Int) := by
  unfold cellMul
  simp only []
  rw [remLL_small (Int.natCast_nonneg _) (by exact_mod_cast mod_lt_mod X),
    remLL_small (Int.natCast_nonneg _) (by exact_mod_cast mod_lt_mod Y),
    remLL_small (Int.natCast_nonneg _) (by exact_mod_cast mod_lt_mod Z),
    remLL_small (Int.natCast_nonneg _) (by exact_mod_cast mod_lt_mod W)]
  have h0 : (0 : Int) = ((0 : Nat) : Int) := rfl
  rw [h0, accum_step 0 _ _ (by decide) (mod_lt_mod X) (mod_lt_mod Y),
    accum_step _ _ _ (mod_lt_mod _) (mod_lt_mod Z) (mod_lt_mod W), two_products_mod]

theorem cellMulCpp_mod (X Z Y W : Nat) :
    cellMulCpp ((X % 1000000007 : Nat) : Int) ((Z % 1000000007 : Nat) : Int)
        ((Y % 1000000007 : Nat) : Int) ((W % 1000000007 : Nat) : Int) =
      (((X * Y + Z * W) % 1000000007 : Nat) : Int) := by
  unfold cellMulCpp
  simp only []
  have h0 : (0 : Int) = ((0 : Nat) : Int) := rfl
  rw [h0, accum_step 0 _ _ (by decide) (mod_lt_mod X) (mod_lt_mod Y),
    accum_step _ _ _ (mod_lt_mod _) (mod_lt_mod Z) (mod_lt_mod W), two_products_mod]

theorem fibSpec_eq_fib : ∀ n, fibSpec n = Nat.fib n ∧ fibSpec (n + 1) = Nat.fib (n + 1) := by
  intro n
  induction n with
  | zero => exact ⟨rfl, rfl⟩
  | succ k ih =>
    refine ⟨ih.2, ?_⟩
    show fibSpec (k + 1) + fibSpec k = Nat.fib (k + 2)
    rw [Nat.fib_add_two, ih.1, ih.2, Nat.add_comm]

theorem fibSpec_add (a b : Nat) :
    fibSpec (a + b + 1) = fibSpec (a + 1) * fibSpec (b + 1) + fibSpec a * fibSpec b := by
  rw [(fibSpec_eq_fib (a + b)).2, (fibSpec_eq_fib a).2, (fibSpec_eq_fib b).2,
    (fibSpec_eq_fib a).1, (fibSpec_eq_fib b).1, Nat.fib_add, Nat.add_comm]

theorem fibSpec_add_right (a b : Nat) :
    fibSpec (a + b) = fibSpec (a + 1) * fibSpec b + fibSpec a * fibPrev b := by
  cases b with
  | zero => simp [fibSpec, fibPrev]
  | succ b => exact fibSpec_add a b

theorem fibSpec_add_left (a b : Nat) :
    fibSpec (a + b) = fibSpec a * fibSpec (b + 1) + fibPrev a * fibSpec b := by
  cases a with
  | zero => simp [fibSpec, fibPrev]
  | succ a =>
    have h := fibSpec_add b a
    have e : a + 1 + b = b + a + 1 := by omega
    rw [e, h]
    simp only [fibPrev]
    ring

theorem fibPrev_add (a b : Nat) :
    fibPrev (a + b) = fibSpec a * fibSpec b + fibPrev a * fibPrev b := by
  cases a with
  | zero => simp [fibSpec, fibPrev]
  | succ a =>
    have e : a + 1 + b = (a + b) + 1 := by omega
    rw [e]
    simp only [fibPrev]
    exact fibSpec_add_right a b

theorem mat_mul_fibMat (a b : Nat) : mat_mul (fibMat a) (fibMat b) = fibMat (a + b) := by
  unfold mat_mul fibMat
  simp only [cellMul_mod]
  rw [← fibSpec_add, ← fibSpec_add_right, ← fibSpec_add_left, ← fibPrev_add]

theorem mat_mul_cpp_fibMat (a b : Nat) :
    mat_mul_cpp (fibMat a) (fibMat b) = fibMat (a + b) := by
  unfold mat_mul_cpp fibMat
  simp only [cellMulCpp_mod]
  rw [← fibSpec_add, ← fibSpec_add_right, ← fibSpec_add_left, ← fibPrev_add]

theorem powLoop_spec (mul : Mat → Mat → Mat)
    (hmul : ∀ a b, mul (fibMat a) (fibMat b) = fibMat (a + b)) :
    ∀ (fuel r b exp : Nat), exp < 2 ^ fuel →
    powLoop mul (fuel + 1) (fibMat r) (fibMat b) exp = some (fibMat (r + b * exp)) := by
  intro fuel
  induction fuel with
  | zero =>
    intro r b exp h
    have : exp = 0 := by simpa using h
    subst this
    simp [powLoop]
  | succ f ih =>
    intro r b exp h
    rw [powLoop]
    by_cases h0 : exp > 0
    · rw [if_pos h0, Nat.and_one_is_mod, Nat.shiftRight_eq_div_pow, pow_one]
      have hlt : exp / 2 < 2 ^ f := by
        rw [pow_succ] at h; omega
      by_cases hodd : exp % 2 ≠ 0
      · rw [if_pos hodd, hmul, hmul, ih _ _ _ hlt]
        congr 2
        have : exp = 2 * (exp / 2) + 1 := by omega
        conv_rhs => rw [this]
        ring
      · rw [if_neg hodd, hmul, ih _ _ _ hlt]
        congr 2
        have : exp = 2 * (exp / 2) := by omega
        conv_rhs => rw [this]
        ring
    · rw [if_neg h0]
      have : exp = 0 := by omega
      subst this
      simp

theorem fibMat_zero : fibMat 0 = { m00 := 1, m01 := 0, m10 := 0, m11 := 1 } := by
  decide

theorem fibMat_one : fibMat 1 = { m00 := 1, m01 := 1, m10 := 1, m11 := 0 } := by
  decide

theorem mat_pow_spec (fuel n : Nat) (hn : n < 2 ^ 64) (hfuel : 65 ≤ fuel) :
    mat_pow fuel { m00 := 1, m01 := 1, m10 := 1, m11 := 0 } n = some (fibMat n) := by
  obtain ⟨f, rfl⟩ : ∃ f, fuel = f + 1 := ⟨fuel - 1, by omega⟩
  unfold mat_pow
  rw [← fibMat_zero, ← fibMat_one, powLoop_spec mat_mul mat_mul_fibMat f 0 1 n
    (lt_of_lt_of_le hn (Nat.pow_le_pow_right (by omega) (by omega)))]
  congr 2
  omega

theorem mat_pow_cpp_spec (fuel n : Nat) (hn : n < 2 ^ 64) (hfuel : 65 ≤ fuel) :
    mat_pow_cpp fuel { m00 := 1, m01 := 1, m10 := 1, m11 := 0 } n = some (fibMat n) := by
  obtain ⟨f, rfl⟩ : ∃ f, fuel = f + 1 := ⟨fuel - 1, by omega⟩
  unfold mat_pow_cpp
  rw [← fibMat_zero, ← fibMat_one, powLoop_spec mat_mul_cpp mat_mul_cpp_fibMat f 0 1 n
    (lt_of_lt_of_le hn (Nat.pow_le_pow_right (by omega) (by omega)))]
  congr 2
  omega

/-- C12: Fibonacci by matrix power. For every unsigned 64-bit `n` the C program
returns (65 units of fuel suffice) and prints `F(n) mod 1000000007`; for `n >= 1`
`mat_pow([[1,1],[1,0]], n)` is `[[F(n+1), F(n)], [F(n), F(n-1)]]` with every
entry reduced modulo 1000000007, so `m[0][1]` and `m[1][0]` are both
`F(n) mod 1000000007`; the C++ `fibonacci` returns the same number for every
`n` that fits its `long long` argument. -/
theorem fib_matrix_power (n fuel : Nat) (hn : n < 2 ^ 64) (hfuel : 65 ≤ fuel) :
    fibMain fuel n = some ((fibSpec n % 1000000007 : Nat) : Int) ∧
    (1 ≤ n → ∃ r, mat_pow fuel { m00 := 1, m01 := 1, m10 := 1, m11 := 0 } n = some r ∧
      r.m00 = ((fibSpec (n + 1) % 1000000007 : Nat) : Int) ∧
      r.m01 = ((fibSpec n % 1000000007 : Nat) : Int) ∧
      r.m10 = ((fibSpec n % 1000000007 : Nat) : Int) ∧
      r.m11 = ((fibSpec (n - 1) % 1000000007 : Nat) : Int)) ∧
    (n < 2 ^ 63 → fibonacci fuel n = some ((fibSpec n % 1000000007 : Nat) : Int)) := by
  have hp := mat_pow_spec fuel n hn hfuel
  refine ⟨?_, ?_, ?_⟩
  · unfold fibMain
    by_cases h0 : n = 0
    · subst h0; rfl
    · rw [if_neg h0, hp]; rfl
  · intro h1
    refine ⟨fibMat n, hp, rfl, rfl, rfl, ?_⟩
    obtain ⟨k, rfl⟩ : ∃ k, n = k + 1 := ⟨n - 1, by omega⟩
    rfl
  · intro _
    unfold fibonacci
    by_cases h0 : n = 0
    · subst h0; rfl
    · rw [if_neg h0]
      by_cases h1 : n = 1
      · subst h1; rfl
      · rw [if_neg h1, mat_pow_cpp_spec fuel n hn hfuel]; rfl

theorem fib_matrix_power_witness :
    (10 < 2 ^ 64 ∧ 65 ≤ 65) ∧
    (fibMain 65 10 = some ((fibSpec 10 % 1000000007 : Nat) : Int) ∧
    (1 ≤ 10 → ∃ r, mat_pow 65 { m00 := 1, m01 := 1, m10 := 1, m11 := 0 } 10 = some r ∧
      r.m00 = ((fibSpec (10 + 1) % 1000000007 : Nat) : Int) ∧
      r.m01 = ((fibSpec 10 % 1000000007 : Nat) : Int) ∧
      r.m10 = ((fibSpec 10 % 1000000007 : Nat) : Int) ∧
      r.m11 = ((fibSpec (10 - 1) % 1000000007 : Nat) : Int)) ∧
    (10 < 2 ^ 63 → fibonacci 65 10 = some ((fibSpec 10 % 1000000007 : Nat) : Int))) :=
  ⟨by decide, fib_matrix_power 10 65 (by decide) (by decide)⟩

end MatExp

/-! ## Theorems: Dijkstra shortest path -/

namespace Dijkstra

theorem dinv_cur {E : List (Nat × Nat × Int)} {S : List Nat} {cur : Nat}
    {dist : Nat → Int} {h : MinHeap} (hinv : DInv E S cur [] dist h) (c : Nat) :
    DInv E S c [] dist h := by
  refine ⟨hinv.hok, hinv.hsrc, hinv.hrange, hinv.hpath, hinv.hopt, ?_, hinv.hlive, hinv.hent⟩
  intro a b w ha he
  rcases hinv.hrel a b w ha he with h1 | ⟨_, h2⟩
  · left; exact h1
  · simp at h2

end Dijkstra
